import Mathlib

/-!
Verification development for the sem-catalogue repository.

The development shallowly embeds the URL-identity subsystem
(`backend/app/utils/canonical.py`), the signal reconciler
(`backend/app/ai/reconcile.py`) and the version store
(`backend/app/services/pages.py`).  Python strings are embedded as
`List Char` (the claims and all theorems below concern ASCII data, and
the embedding is faithful on ASCII inputs); Python `None` becomes
`Option`; code that can raise is embedded in `Except String`.

The embedding of `normalize_url` includes the parts of CPython's
`urllib.parse` (`urlsplit`, `urlparse`, `parse_qsl`, `unquote`,
`urlunparse`) that the source calls, translated from the CPython
implementation: WHATWG control/space stripping, tab/newline removal,
scheme detection, netloc splitting with the "Invalid IPv6 URL" check,
fragment/query splitting, path-parameter splitting, query-string
splitting with `keep_blank_values=True`, plus-to-space conversion and
percent-decoding through a UTF-8 decoder with U+FFFD replacement.
-/

deriving instance DecidableEq for Except

namespace SemCatalogue

/-! ### Basic character and string helpers (ASCII) -/

def isC0OrSpace (c : Char) : Bool := c.toNat ≤ 0x20

def isAsciiUpper (c : Char) : Bool := 0x41 ≤ c.toNat && c.toNat ≤ 0x5a

def isAsciiLower (c : Char) : Bool := 0x61 ≤ c.toNat && c.toNat ≤ 0x7a

def isAsciiAlpha (c : Char) : Bool := isAsciiUpper c || isAsciiLower c

def isAsciiDigit (c : Char) : Bool := 0x30 ≤ c.toNat && c.toNat ≤ 0x39

/-- `str.lower` on an ASCII character. -/
def lowerChar (c : Char) : Char :=
  if isAsciiUpper c then Char.ofNat (c.toNat + 0x20) else c

/-- `str.lower` on an ASCII string. -/
def lowerAscii (l : List Char) : List Char := l.map lowerChar

/-- Characters allowed in a URL scheme after the first one
(`scheme_chars` in CPython `urllib.parse`). -/
def isSchemeChar (c : Char) : Bool :=
  isAsciiAlpha c || isAsciiDigit c || c = '+' || c = '-' || c = '.'

/-- Strip leading WHATWG C0-control-or-space characters
(`url.lstrip(_WHATWG_C0_CONTROL_OR_SPACE)`; CPython only lstrips,
"as some applications rely on preserving trailing space"). -/
def lstripC0 (l : List Char) : List Char := l.dropWhile isC0OrSpace

/-- Remove `\t`, `\r`, `\n` everywhere (`_UNSAFE_URL_BYTES_TO_REMOVE`). -/
def removeUnsafe (l : List Char) : List Char :=
  l.filter (fun c => !(c = '\t' || c = '\r' || c = '\n'))

/-- Split at the first occurrence of `sep`; `none` when absent
(embeds `str.split(sep, 1)` / `str.find(sep)`). -/
def splitFirst (sep : Char) : List Char → Option (List Char × List Char)
  | [] => none
  | c :: rest =>
    if c = sep then some ([], rest)
    else (splitFirst sep rest).map (fun p => (c :: p.1, p.2))

/-- Index of the first occurrence of `c`. -/
def findCharIdx (c : Char) : List Char → Option Nat
  | [] => none
  | x :: xs => if x = c then some 0 else (findCharIdx c xs).map (· + 1)

/-- `str.find(c, start)`: index of the first occurrence of `c` at
position `≥ start`. -/
def findCharFrom (c : Char) (start : Nat) (l : List Char) : Option Nat :=
  (findCharIdx c (l.drop start)).map (· + start)

/-- `str.rfind(c)`: index of the last occurrence of `c`. -/
def rfindChar (c : Char) (l : List Char) : Option Nat :=
  (findCharIdx c l.reverse).map (fun i => l.length - 1 - i)

/-- `sep.join(pieces)` for a one-character separator. -/
def joinChar (sep : Char) : List (List Char) → List Char
  | [] => []
  | [p] => p
  | p :: ps => p ++ sep :: joinChar sep ps

/-- `str.split(sep)` for a one-character separator (Python semantics on
a non-empty string: always at least one piece). -/
def splitOnChar (sep : Char) : List Char → List (List Char)
  | [] => [[]]
  | x :: xs =>
    let r := splitOnChar sep xs
    if x = sep then [] :: r
    else
      match r with
      | [] => [[x]]
      | h :: t => (x :: h) :: t

/-! ### Percent-decoding: `urllib.parse.unquote` with `utf-8`/`replace` -/

def hexVal (c : Char) : Option Nat :=
  if isAsciiDigit c then some (c.toNat - 0x30)
  else if 0x61 ≤ c.toNat && c.toNat ≤ 0x66 then some (c.toNat - 0x61 + 10)
  else if 0x41 ≤ c.toNat && c.toNat ≤ 0x46 then some (c.toNat - 0x41 + 10)
  else none

/-- One piece of `unquote_to_bytes`: a piece that followed a `%`.
If it starts with two hex digits they become one byte, otherwise the
`%` stays literal. -/
def uqBytesItem (item : List Char) : List Nat :=
  match item with
  | a :: b :: rest =>
    match hexVal a, hexVal b with
    | some x, some y => (16 * x + y) :: rest.map Char.toNat
    | _, _ => '%'.toNat :: item.map Char.toNat
  | _ => '%'.toNat :: item.map Char.toNat

/-- `urllib.parse.unquote_to_bytes` on an ASCII string. -/
def unquoteToBytes (l : List Char) : List Nat :=
  match splitOnChar '%' l with
  | [] => []
  | h :: t => h.map Char.toNat ++ t.flatMap uqBytesItem

/-- Unicode replacement character U+FFFD. -/
def repl : Char := Char.ofNat 0xFFFD

def isContByte (b : Nat) : Bool := 0x80 ≤ b && b ≤ 0xBF

/-- Decode one UTF-8 code point (or one maximal ill-formed subpart,
yielding U+FFFD) from byte `b` followed by `rest`; returns the decoded
character and the remaining bytes. -/
def decodeOne (b : Nat) (rest : List Nat) : Char × List Nat :=
  if b < 0x80 then (Char.ofNat b, rest)
  else if b < 0xC2 then (repl, rest)
  else if b ≤ 0xDF then
    match rest with
    | [] => (repl, [])
    | b2 :: rest2 =>
      if isContByte b2 then (Char.ofNat ((b - 0xC0) * 64 + (b2 - 0x80)), rest2)
      else (repl, rest)
  else if b ≤ 0xEF then
    match rest with
    | [] => (repl, [])
    | b2 :: rest2 =>
      if (if b = 0xE0 then 0xA0 else 0x80) ≤ b2 &&
          b2 ≤ (if b = 0xED then 0x9F else 0xBF) then
        match rest2 with
        | [] => (repl, [])
        | b3 :: rest3 =>
          if isContByte b3 then
            (Char.ofNat ((b - 0xE0) * 4096 + (b2 - 0x80) * 64 + (b3 - 0x80)),
              rest3)
          else (repl, rest2)
      else (repl, rest)
  else if b ≤ 0xF4 then
    match rest with
    | [] => (repl, [])
    | b2 :: rest2 =>
      if (if b = 0xF0 then 0x90 else 0x80) ≤ b2 &&
          b2 ≤ (if b = 0xF4 then 0x8F else 0xBF) then
        match rest2 with
        | [] => (repl, [])
        | b3 :: rest3 =>
          if isContByte b3 then
            match rest3 with
            | [] => (repl, [])
            | b4 :: rest4 =>
              if isContByte b4 then
                (Char.ofNat ((b - 0xF0) * 262144 + (b2 - 0x80) * 4096 +
                    (b3 - 0x80) * 64 + (b4 - 0x80)), rest4)
              else (repl, rest3)
          else (repl, rest2)
      else (repl, rest)
  else (repl, rest)

/-- Decoding loop with fuel (the fuel is the byte count; `decodeOne`
always consumes at least one byte, so the fuel never runs out). -/
def utf8DecodeGo : Nat → List Nat → List Char
  | 0, _ => []
  | _ + 1, [] => []
  | fuel + 1, b :: rest =>
    (decodeOne b rest).1 :: utf8DecodeGo fuel (decodeOne b rest).2

/-- UTF-8 decoding with the `replace` error handler (CPython decodes
with substitution of maximal subparts). -/
def utf8DecodeReplace (l : List Nat) : List Char := utf8DecodeGo l.length l

/-- `urllib.parse.unquote(s, encoding="utf-8", errors="replace")` on an
ASCII string: a string without `%` is returned unchanged, otherwise it
is percent-decoded bytewise and UTF-8-decoded with replacement. -/
def unquote (l : List Char) : List Char :=
  if '%' ∈ l then utf8DecodeReplace (unquoteToBytes l) else l

/-! ### `urlsplit` / `urlparse` -/

structure UrlParsed where
  scheme : List Char
  netloc : List Char
  path : List Char
  params : List Char
  query : List Char
  fragment : List Char
deriving Repr, DecidableEq

def isNetlocDelim (c : Char) : Bool := c = '/' || c = '?' || c = '#'

/-- Scheme detection in CPython `urlsplit`: the text before the first
`:` is a scheme when it is non-empty, starts with an ASCII letter and
consists of scheme characters; it is lowercased. -/
def schemeSplit (url : List Char) : List Char × List Char :=
  match splitFirst ':' url with
  | none => ([], url)
  | some (bef, aft) =>
    if bef ≠ [] && (match bef with | c :: _ => isAsciiAlpha c | [] => false)
        && bef.all isSchemeChar
    then (lowerAscii bef, aft)
    else ([], url)

/-- Fragment then query splitting (in `urlsplit` the fragment is split
off first, at the first `#`; then the query at the first `?`). -/
def fragQuerySplit (l : List Char) : List Char × List Char × List Char :=
  let (l1, frag) :=
    match splitFirst '#' l with
    | some (a, f) => (a, f)
    | none => (l, [])
  match splitFirst '?' l1 with
  | some (a, q) => (a, q, frag)
  | none => (l1, [], frag)

structure UrlSplitRes where
  scheme : List Char
  netloc : List Char
  path : List Char
  query : List Char
  fragment : List Char
deriving Repr, DecidableEq

/-- Embedding of CPython `urllib.parse.urlsplit` (ASCII fragment;
`allow_fragments=True`).  Raises `ValueError("Invalid IPv6 URL")` on a
netloc containing `[` without `]` or vice versa.  (CPython
additionally validates a bracketed host as IPv6/IPvFuture and runs the
NFKC `_checknetloc` check, which never fires on ASCII input; the
theorems below only quantify over bracket-free ASCII inputs, where
both embeddings agree.) -/
def urlsplitE (url0 : List Char) : Except String UrlSplitRes :=
  let url1 := removeUnsafe (lstripC0 url0)
  let (scheme, url2) := schemeSplit url1
  if url2.take 2 = ['/', '/'] then
    let rest := url2.drop 2
    let netloc := rest.takeWhile (fun c => !isNetlocDelim c)
    let after := rest.dropWhile (fun c => !isNetlocDelim c)
    if ('[' ∈ netloc && ']' ∉ netloc) || (']' ∈ netloc && '[' ∉ netloc) then
      .error "Invalid IPv6 URL"
    else
      let (path, query, fragment) := fragQuerySplit after
      .ok ⟨scheme, netloc, path, query, fragment⟩
  else
    let (path, query, fragment) := fragQuerySplit url2
    .ok ⟨scheme, [], path, query, fragment⟩

/-- CPython `_splitparams`: split path parameters at the first `;`
after the last `/` (or the first `;` when there is no `/`). -/
def splitparams (u : List Char) : List Char × List Char :=
  let i :=
    if '/' ∈ u then
      match rfindChar '/' u with
      | some j => findCharFrom ';' j u
      | none => findCharFrom ';' 0 u
    else findCharFrom ';' 0 u
  match i with
  | none => (u, [])
  | some i => (u.take i, u.drop (i + 1))

/-- CPython's `uses_params` list. -/
def uses_params : List (List Char) :=
  ["", "ftp", "hdl", "prospero", "http", "imap", "https", "shttp", "rtsp",
   "rtsps", "rtspu", "sip", "sips", "mms", "sftp", "tel"].map String.toList

/-- Embedding of CPython `urllib.parse.urlparse`: path parameters are
split only for a scheme in `uses_params`. -/
def urlparseE (url : List Char) : Except String UrlParsed := do
  let s ← urlsplitE url
  if s.scheme ∈ uses_params && ';' ∈ s.path then
    let (p, params) := splitparams s.path
    return ⟨s.scheme, s.netloc, p, params, s.query, s.fragment⟩
  else
    return ⟨s.scheme, s.netloc, s.path, [], s.query, s.fragment⟩

/-! ### `parse_qsl` with `keep_blank_values=True` -/

def plusToSpace (l : List Char) : List Char :=
  l.map (fun c => if c = '+' then ' ' else c)

/-- One `name=value` piece of the query string: empty pieces are
skipped; a piece without `=` keeps a blank value
(`keep_blank_values=True`); names and values get `+` converted to
space and are percent-decoded. -/
def qslPair (seg : List Char) : Option (List Char × List Char) :=
  if seg = [] then none
  else
    let (name, value) :=
      match splitFirst '=' seg with
      | some (n, v) => (n, v)
      | none => (seg, ([] : List Char))
    some (unquote (plusToSpace name), unquote (plusToSpace value))

/-- Embedding of `urllib.parse.parse_qsl(qs, keep_blank_values=True)`. -/
def parseQsl (qs : List Char) : List (List Char × List Char) :=
  if qs = [] then [] else (splitOnChar '&' qs).filterMap qslPair

/-! ### `urlunparse` -/

/-- CPython's `uses_netloc` list. -/
def uses_netloc : List (List Char) :=
  ["", "ftp", "http", "gopher", "nntp", "telnet", "imap", "wais", "file",
   "mms", "https", "shttp", "snews", "prospero", "rtsp", "rtsps", "rtspu",
   "rsync", "svn", "svn+ssh", "sftp", "nfs", "git", "git+ssh", "ws",
   "wss"].map String.toList

/-- Embedding of `urllib.parse.urlunparse` (via `urlunsplit`): a
scheme in `uses_netloc` always gets a `//`, even with an empty
netloc. -/
def urlunparseChars (scheme netloc path params query fragment : List Char) :
    List Char :=
  let url := if params ≠ [] then path ++ ';' :: params else path
  let url :=
    if netloc ≠ [] ||
        (scheme ≠ [] && scheme ∈ uses_netloc && url.take 2 ≠ ['/', '/']) then
      '/' :: '/' :: netloc ++
        (if url ≠ [] && url.take 1 ≠ ['/'] then '/' :: url else url)
    else url
  let url := if scheme ≠ [] then scheme ++ ':' :: url else url
  let url := if query ≠ [] then url ++ '?' :: query else url
  if fragment ≠ [] then url ++ '#' :: fragment else url

/-! ### `normalize_url` (backend/app/utils/canonical.py) -/

/-- The fixed tracking-parameter set `TRACKING_PARAMS`. -/
def TRACKING_PARAMS : List (List Char) :=
  ["utm_source", "utm_medium", "utm_campaign", "utm_term", "utm_content",
   "gclid", "fbclid", "msclkid", "aff_id", "aff_sub", "subid", "sid"].map
    String.toList

/-- `re.sub(r"//+", "/", path)`: collapse every run of slashes to one
(a character is dropped exactly when it is a `/` directly followed by
another `/`). -/
def collapseSlashes (l : List Char) : List Char :=
  l.foldr
    (fun c acc => if c = '/' && acc.head? = some '/' then acc else c :: acc)
    []

/-- Remove a trailing slash except on the root path. -/
def stripTrailingSlash (p : List Char) : List Char :=
  if p.getLast? = some '/' && decide (1 < p.length) then p.dropLast else p

/-- Embedding of `normalize_url` from `backend/app/utils/canonical.py`.
The only exception it can propagate is the "Invalid IPv6 URL"
`ValueError` from `urlparse`. -/
def normalize_url (url : List Char) : Except String (List Char) := do
  let parsed ← urlparseE url
  let s0 := lowerAscii parsed.scheme
  let scheme := if s0 = [] then String.toList "https" else s0
  let netloc := lowerAscii parsed.netloc
  let path := stripTrailingSlash (collapseSlashes parsed.path)
  let q := (parseQsl parsed.query).filter (fun kv => kv.1 ∉ TRACKING_PARAMS)
  let query :=
    if q ≠ [] then joinChar '&' (q.map (fun kv => kv.1 ++ '=' :: kv.2))
    else []
  return urlunparseChars scheme netloc path [] query []

/-! ### SHA-256 (the `hashlib.sha256(...).hexdigest()` call in
`page_id_from_canonical`), FIPS 180-4 over byte lists -/

/-- Truncate to a 32-bit word. -/
def w32 (n : Nat) : Nat := n % 4294967296

/-- 32-bit right rotation. -/
def rotr32 (n x : Nat) : Nat := w32 ((x >>> n) ||| (x <<< (32 - n)))

def sha256K : List Nat :=
  [1116352408, 1899447441, 3049323471, 3921009573, 961987163, 1508970993,
   2453635748, 2870763221, 3624381080, 310598401, 607225278, 1426881987,
   1925078388, 2162078206, 2614888103, 3248222580, 3835390401, 4022224774,
   264347078, 604807628, 770255983, 1249150122, 1555081692, 1996064986,
   2554220882, 2821834349, 2952996808, 3210313671, 3336571891, 3584528711,
   113926993, 338241895, 666307205, 773529912, 1294757372, 1396182291,
   1695183700, 1986661051, 2177026350, 2456956037, 2730485921, 2820302411,
   3259730800, 3345764771, 3516065817, 3600352804, 4094571909, 275423344,
   430227734, 506948616, 659060556, 883997877, 958139571, 1322822218,
   1537002063, 1747873779, 1955562222, 2024104815, 2227730452, 2361852424,
   2428436474, 2756734187, 3204031479, 3329325298]

structure H8 where
  r0 : Nat
  r1 : Nat
  r2 : Nat
  r3 : Nat
  r4 : Nat
  r5 : Nat
  r6 : Nat
  r7 : Nat
deriving Repr, DecidableEq

def sha256Init : H8 :=
  ⟨1779033703, 3144134277, 1013904242, 2773480762,
   1359893119, 2600822924, 528734635, 1541459225⟩

/-- Extend the 16-word block with `k` more schedule words. -/
def extendSchedule (acc : List Nat) : Nat → List Nat
  | 0 => acc
  | k + 1 =>
    let n := acc.length
    let w15 := acc.getD (n - 15) 0
    let w2 := acc.getD (n - 2) 0
    let s0 := (rotr32 7 w15) ^^^ (rotr32 18 w15) ^^^ (w15 >>> 3)
    let s1 := (rotr32 17 w2) ^^^ (rotr32 19 w2) ^^^ (w2 >>> 10)
    extendSchedule (acc ++ [w32 (acc.getD (n - 16) 0 + s0 + acc.getD (n - 7) 0 + s1)]) k

/-- One round of the SHA-256 compression function. -/
def sha256Round (st : H8) (kw : Nat × Nat) : H8 :=
  let S1 := (rotr32 6 st.r4) ^^^ (rotr32 11 st.r4) ^^^ (rotr32 25 st.r4)
  let ch := (st.r4 &&& st.r5) ^^^ ((st.r4 ^^^ 0xffffffff) &&& st.r6)
  let t1 := w32 (st.r7 + S1 + ch + kw.1 + kw.2)
  let S0 := (rotr32 2 st.r0) ^^^ (rotr32 13 st.r0) ^^^ (rotr32 22 st.r0)
  let mj := (st.r0 &&& st.r1) ^^^ (st.r0 &&& st.r2) ^^^ (st.r1 &&& st.r2)
  let t2 := w32 (S0 + mj)
  ⟨w32 (t1 + t2), st.r0, st.r1, st.r2, w32 (st.r3 + t1), st.r4, st.r5, st.r6⟩

/-- Compress one 64-byte block (given as 16 words). -/
def compressBlock (h : H8) (block : List Nat) : H8 :=
  let ws := extendSchedule block 48
  let st := (sha256K.zip ws).foldl sha256Round h
  ⟨w32 (h.r0 + st.r0), w32 (h.r1 + st.r1), w32 (h.r2 + st.r2),
   w32 (h.r3 + st.r3), w32 (h.r4 + st.r4), w32 (h.r5 + st.r5),
   w32 (h.r6 + st.r6), w32 (h.r7 + st.r7)⟩

/-- SHA-256 padding: append `0x80`, zeros up to 56 mod 64, and the
bit length as 8 big-endian bytes. -/
def padMsg (msg : List Nat) : List Nat :=
  let L := msg.length
  let zeros := (119 - (L % 64)) % 64
  let bitLen := 8 * L
  msg ++ 0x80 :: List.replicate zeros 0 ++
    [(bitLen >>> 56) % 256, (bitLen >>> 48) % 256, (bitLen >>> 40) % 256,
     (bitLen >>> 32) % 256, (bitLen >>> 24) % 256, (bitLen >>> 16) % 256,
     (bitLen >>> 8) % 256, bitLen % 256]

/-- Group bytes into big-endian 32-bit words. -/
def bytesToWords : List Nat → List Nat
  | b1 :: b2 :: b3 :: b4 :: rest =>
    (b1 * 16777216 + b2 * 65536 + b3 * 256 + b4) :: bytesToWords rest
  | _ => []

/-- Chunking loop with fuel (the fuel bounds the number of chunks). -/
def chunks64Go : Nat → List Nat → List (List Nat)
  | 0, _ => []
  | _ + 1, [] => []
  | fuel + 1, l@(_ :: _) => l.take 64 :: chunks64Go fuel (l.drop 64)

/-- Split into 64-byte chunks. -/
def chunks64 (l : List Nat) : List (List Nat) := chunks64Go l.length l

def sha256State (msg : List Nat) : H8 :=
  (chunks64 (padMsg msg)).foldl (fun h blk => compressBlock h (bytesToWords blk))
    sha256Init

def hexDigits : List Char := String.toList "0123456789abcdef"

def hexChar (n : Nat) : Char := hexDigits.getD (n % 16) '0'

def byteHex (b : Nat) : List Char := [hexChar (b / 16), hexChar b]

def wordBytes (w : Nat) : List Nat :=
  [(w >>> 24) % 256, (w >>> 16) % 256, (w >>> 8) % 256, w % 256]

def digestBytes (h : H8) : List Nat :=
  wordBytes h.r0 ++ wordBytes h.r1 ++ wordBytes h.r2 ++ wordBytes h.r3 ++
    wordBytes h.r4 ++ wordBytes h.r5 ++ wordBytes h.r6 ++ wordBytes h.r7

/-- `hashlib.sha256(msg).hexdigest()` over a byte list. -/
def sha256hex (msg : List Nat) : List Char :=
  (digestBytes (sha256State msg)).flatMap byteHex

/-- UTF-8 encoding of one character (`str.encode("utf-8")`). -/
def utf8EncodeChar (c : Char) : List Nat :=
  let n := c.toNat
  if n < 0x80 then [n]
  else if n < 0x800 then [0xC0 + n / 64, 0x80 + n % 64]
  else if n < 0x10000 then
    [0xE0 + n / 4096, 0x80 + (n / 64) % 64, 0x80 + n % 64]
  else
    [0xF0 + n / 262144, 0x80 + (n / 4096) % 64, 0x80 + (n / 64) % 64,
     0x80 + n % 64]

def utf8Encode (l : List Char) : List Nat := l.flatMap utf8EncodeChar

/-! ### `page_id_from_canonical` (backend/app/utils/canonical.py) -/

/-- Embedding of `page_id_from_canonical`: the SHA-256 hex digest of
the UTF-8 bytes of the normalized URL (the `ValueError` that
`normalize_url` can raise propagates). -/
def page_id_from_canonical (canonical_url : List Char) :
    Except String (List Char) :=
  (normalize_url canonical_url).map
    (fun normalized => sha256hex (utf8Encode normalized))

/-! ### Python/JSON values and `reconcile_one`
(backend/app/ai/reconcile.py)

The extraction result consumed by `reconcile_one` is a dynamically
typed JSON-like Python value.  Fallible operations (attribute access
on a non-dict, `len()` of a number, iterating a number, `.strip()` of
a non-string) are embedded in `Except String`, mirroring the
`AttributeError`/`TypeError` they raise in Python. -/

inductive JVal where
  | null : JVal
  | jbool : Bool → JVal
  | jnum : Int → JVal
  | jstr : List Char → JVal
  | jarr : List JVal → JVal
  | jobj : List (List Char × JVal) → JVal
deriving Repr


/-- Dictionary keys and fixed strings used by the reconciler. -/
def kListings : List Char := String.toList "listings"
def kOtherPromotions : List Char := String.toList "other_promotions"
def kBrands : List Char := String.toList "brands"
def kBrandName : List Char := String.toList "brand_name"
def kPosition : List Char := String.toList "position"
def kLocation : List Char := String.toList "location"
def kProductName : List Char := String.toList "product_name"
def kProductOfferName : List Char := String.toList "product_offer_name"
def kHasPromotion : List Char := String.toList "has_promotion"
def kOther : List Char := String.toList "other"
def kMainList : List Char := String.toList "main_list"
def kPageType : List Char := String.toList "page_type"

/-- Python truthiness of a JSON value. -/
def truthy : JVal → Bool
  | .null => false
  | .jbool b => b
  | .jnum n => n != 0
  | .jstr s => !s.isEmpty
  | .jarr l => !l.isEmpty
  | .jobj l => !l.isEmpty

/-- Dictionary lookup (first binding; Python dict keys are unique). -/
def jgetOpt (k : List Char) : List (List Char × JVal) → Option JVal
  | [] => none
  | kv :: rest => if kv.1 = k then some kv.2 else jgetOpt k rest

/-- `d.get(k)` / `d.get(k, default)`: raises `AttributeError` when `d`
is not a dict. -/
def dictGet (d : JVal) (k : List Char) (dflt : JVal) : Except String JVal :=
  match d with
  | .jobj kvs => .ok ((jgetOpt k kvs).getD dflt)
  | _ => .error "AttributeError: get"

/-- `data.get(k, []) if isinstance(data, dict) else []`. -/
def getIfDict (data : JVal) (k : List Char) : JVal :=
  match data with
  | .jobj kvs => (jgetOpt k kvs).getD (.jarr [])
  | _ => .jarr []

/-- `iter(v)`: lists yield elements, strings their characters, dicts
their keys; other values raise `TypeError`. -/
def jiter : JVal → Except String (List JVal)
  | .jarr l => .ok l
  | .jstr s => .ok (s.map (fun c => .jstr [c]))
  | .jobj kvs => .ok (kvs.map (fun kv => JVal.jstr kv.1))
  | _ => .error "TypeError: not iterable"

/-- `len(v)`. -/
def jlen : JVal → Except String Nat
  | .jarr l => .ok l.length
  | .jstr s => .ok s.length
  | .jobj l => .ok l.length
  | _ => .error "TypeError: no len"

/-- `x or y`. -/
def jor (v d : JVal) : JVal := if truthy v then v else d

/-- Python `str.strip()` whitespace (ASCII part). -/
def isPyWs (c : Char) : Bool :=
  c = ' ' || c = '\t' || c = '\n' || c = '\r' || c.toNat = 0x0b || c.toNat = 0x0c

def pyStrip (l : List Char) : List Char :=
  ((l.dropWhile isPyWs).reverse.dropWhile isPyWs).reverse

/-- `v.strip()`: raises `AttributeError` when `v` is not a string. -/
def jstrip (v : JVal) : Except String (List Char) :=
  match v with
  | .jstr s => .ok (pyStrip s)
  | _ => .error "AttributeError: strip"

/-- `any(bool(li.get("has_promotion")) for li in listings)`, with
`any`'s short-circuiting. -/
def anyPromo : List JVal → Except String Bool
  | [] => .ok false
  | li :: rest => do
    let g ← dictGet li (kHasPromotion) .null
    if truthy g then .ok true else anyPromo rest

/-- `[b.get(key) for b in l if b.get(key)]`. -/
def listCompGet (key : List Char) : List JVal → Except String (List JVal)
  | [] => .ok []
  | b :: rest => do
    let g ← dictGet b key .null
    let r ← listCompGet key rest
    if truthy g then .ok (g :: r) else .ok r

/-- `[(b or "").strip() for b in l]` (the keys of the de-duplication
dict comprehension, before de-duplication). -/
def stripAll : List JVal → Except String (List (List Char))
  | [] => .ok []
  | v :: rest => do
    let s ← jstrip (jor v (.jstr []))
    let r ← stripAll rest
    .ok (s :: r)

/-- Python dict-comprehension de-duplication: keep the first
occurrence of each key, in insertion order. -/
def dedupeAux (seen : List (List Char)) : List (List Char) → List (List Char)
  | [] => []
  | x :: rest =>
    if x ∈ seen then dedupeAux seen rest else x :: dedupeAux (x :: seen) rest

def dedupeKeepFirst : List (List Char) → List (List Char) := dedupeAux []

/-- `"; ".join(pieces)`. -/
def joinSemiSp : List (List Char) → List Char
  | [] => []
  | [p] => p
  | p :: ps => p ++ ';' :: ' ' :: joinSemiSp ps

/-- The brand-positions loop: for each listing take the stripped brand
name, stripped position and stripped location (defaulted to
`"other"`), and emit `brand:position` when the brand and position are
non-empty and the location is `main_list`. -/
def brandPositionsLoop : List JVal → Except String (List (List Char))
  | [] => .ok []
  | li :: rest => do
    let bn ← do
      let g ← dictGet li (kBrandName) .null
      jstrip (jor g (.jstr []))
    let pos ← do
      let g ← dictGet li (kPosition) .null
      jstrip (jor g (.jstr []))
    let loc ← do
      let g ← dictGet li (kLocation) .null
      jstrip (jor g (.jstr (kOther)))
    let r ← brandPositionsLoop rest
    if !bn.isEmpty && !pos.isEmpty && loc = kMainList then
      .ok ((bn ++ ':' :: pos) :: r)
    else .ok r

/-- `(li.get("product_name") or li.get("product_offer_name") or
"").strip()`, with Python's left-to-right short-circuit. -/
def prodName (li : JVal) : Except String (List Char) := do
  let g1 ← dictGet li (kProductName) .null
  if truthy g1 then jstrip g1
  else do
    let g2 ← dictGet li (kProductOfferName) .null
    jstrip (jor g2 (.jstr []))

/-- The product-names collection loop. -/
def productNamesLoop : List JVal → Except String (List (List Char))
  | [] => .ok []
  | li :: rest => do
    let pname ← prodName li
    let r ← productNamesLoop rest
    if !pname.isEmpty then .ok (pname :: r) else .ok r

/-- The product-positions loop. -/
def productPositionsLoop : List JVal → Except String (List (List Char))
  | [] => .ok []
  | li :: rest => do
    let pname ← prodName li
    let pos ← do
      let g ← dictGet li (kPosition) .null
      jstrip (jor g (.jstr []))
    let loc ← do
      let g ← dictGet li (kLocation) .null
      jstrip (jor g (.jstr (kOther)))
    let r ← productPositionsLoop rest
    if !pname.isEmpty && !pos.isEmpty && loc = kMainList then
      .ok ((pname ++ ':' :: pos) :: r)
    else .ok r

structure Reconciled where
  has_promotions : Bool
  brand_list : List (List Char)
  brand_positions : Option (List Char)
  product_list : List (List Char)
  product_positions : Option (List Char)
deriving Repr, DecidableEq

/-- `any_result or (len(other_promos) > 0)` — the rhs evaluated only
when the lhs is falsy. -/
def orLenPositive (b : Bool) (v : JVal) : Except String Bool :=
  if b then .ok true
  else do
    let n ← jlen v
    .ok (decide (0 < n))

/-- `if not brand_names: brand_names = [li.get("brand_name") for li in
listings if li.get("brand_name")]`. -/
def brandNamesSource (bn0 : List JVal) (lis : List JVal) :
    Except String (List JVal) :=
  if bn0.isEmpty then listCompGet kBrandName lis else .ok bn0

/-- Embedding of `reconcile_one` from `backend/app/ai/reconcile.py`. -/
def reconcile_one (data : JVal) : Except String Reconciled := do
  let listings := getIfDict data (kListings)
  let other_promos := getIfDict data (kOtherPromotions)
  let brands := getIfDict data (kBrands)
  let lis ← jiter listings
  let anyP ← anyPromo lis
  let has_promotions ← orLenPositive anyP other_promos
  let bs ← jiter brands
  let bn0 ← listCompGet (kBrandName) bs
  let bn1 ← brandNamesSource bn0 lis
  let stripped ← stripAll bn1
  let brand_names := (dedupeKeepFirst stripped).filter (fun b => !b.isEmpty)
  let positions ← brandPositionsLoop lis
  let brand_positions :=
    if !positions.isEmpty then some (joinSemiSp positions) else none
  let pn0 ← productNamesLoop lis
  let product_names :=
    (dedupeKeepFirst (pn0.map pyStrip)).filter (fun p => !p.isEmpty)
  let ppos ← productPositionsLoop lis
  let product_positions :=
    if !ppos.isEmpty then some (joinSemiSp ppos) else none
  return ⟨has_promotions, brand_names, brand_positions,
          product_names, product_positions⟩

/-! ### The inventory table and `upsert_page`
(backend/app/services/pages.py, backend/app/models/tables.py)

A `pages_sem_inventory` row.  Dates are embedded as abstract `Nat`
days (`today = date.today()` becomes an explicit parameter), strings
as `List Char`, nullable columns as `Option`. -/

structure Row where
  id : Nat
  page_id : List Char
  url : List Char
  canonical_url : List Char
  status_code : Int
  primary_category : Option (List Char)
  vertical : Option (List Char)
  template_type : Option (List Char)
  has_coupons : Bool
  has_promotions : Bool
  brand_list : List (List Char)
  brand_positions : Option (List Char)
  product_list : List (List Char)
  product_positions : Option (List Char)
  first_seen : Nat
  last_seen : Nat
  sessions : Option Int
  ga_key_events_14d : Option Int
  airtable_id : Option (List Char)
  channel : Option (List Char)
  team : Option (List Char)
  brand : Option (List Char)
  page_status : Option (List Char)
  catalogued : Int
deriving Repr, DecidableEq

/-- A `page_ai_extracts` row. -/
structure ExtractRow where
  id : Nat
  page_id : List Char
  url : List Char
  created_at : List Char
  html_bytes : Int
  screenshot_bytes : Int
  data : JVal
deriving Repr

/-- The database: ordered row lists plus the autoincrement counter for
the inventory table. -/
structure DB where
  rows : List Row
  aiExtracts : List ExtractRow
  nextId : Nat
deriving Repr

/-- The keyword arguments of `upsert_page` (other than `session` and
dataclass-defaulted exactly as in the source signature). -/
structure Snapshot where
  page_id : List Char
  url : List Char
  canonical_url : List Char
  status_code : Int
  primary_category : Option (List Char) := none
  vertical : Option (List Char) := none
  template_type : Option (List Char) := none
  has_coupons : Bool := false
  has_promotions : Bool := false
  brand_list : Option (List (List Char)) := none
  brand_positions : Option (List Char) := none
  product_list : Option (List (List Char)) := none
  product_positions : Option (List Char) := none
  airtable_id : Option (List Char) := none
  channel : Option (List Char) := none
  team : Option (List Char) := none
  brand : Option (List Char) := none
  page_status : Option (List Char) := none
  catalogued : Option Int := none
  record_id : Option Nat := none
deriving Repr, DecidableEq

/-- `catalogued if catalogued is not None else (1 if status_code != 0
else 0)`. -/
def computedCatalogued (s : Snapshot) : Int :=
  match s.catalogued with
  | some c => c
  | none => if s.status_code ≠ 0 then 1 else 0

/-- The `values` dict of `upsert_page` as a brand-new row: both
`first_seen` and `last_seen` are today; `sessions` and
`ga_key_events_14d` are not assigned (NULL). -/
def valuesRow (s : Snapshot) (today : Nat) (id : Nat) : Row :=
  { id := id
    page_id := s.page_id
    url := s.url
    canonical_url := s.canonical_url
    status_code := s.status_code
    primary_category := s.primary_category
    vertical := s.vertical
    template_type := s.template_type
    has_coupons := s.has_coupons
    has_promotions := s.has_promotions
    brand_list := s.brand_list.getD []
    brand_positions := s.brand_positions
    product_list := s.product_list.getD []
    product_positions := s.product_positions
    first_seen := today
    last_seen := today
    sessions := none
    ga_key_events_14d := none
    airtable_id := s.airtable_id
    channel := s.channel
    team := s.team
    brand := s.brand
    page_status := s.page_status
    catalogued := computedCatalogued s }

/-- The `update_cols` dict applied with `setattr` to an existing row:
everything mutable is overwritten (including `primary_category` and
`vertical`, with whatever the caller passed — `None` by default), and
`last_seen` is set to today; `id`, `page_id`, `first_seen`,
`sessions`, `ga_key_events_14d` are not in `update_cols`. -/
def applyUpdate (s : Snapshot) (today : Nat) (r : Row) : Row :=
  { r with
    url := s.url
    canonical_url := s.canonical_url
    status_code := s.status_code
    primary_category := s.primary_category
    vertical := s.vertical
    template_type := s.template_type
    has_coupons := s.has_coupons
    has_promotions := s.has_promotions
    brand_list := s.brand_list.getD []
    brand_positions := s.brand_positions
    product_list := s.product_list.getD []
    product_positions := s.product_positions
    last_seen := today
    airtable_id := s.airtable_id
    channel := s.channel
    team := s.team
    brand := s.brand
    page_status := s.page_status
    catalogued := computedCatalogued s }

/-- `.scalars().first()` with no ORDER BY: first matching row. -/
def firstWhere (p : Row → Bool) (rows : List Row) : Option Row :=
  (rows.filter p).head?

/-- `.order_by(id.desc()).first()`: the row with the greatest id. -/
def maxByIdDesc (rows : List Row) : Option Row :=
  rows.foldl
    (fun acc r =>
      match acc with
      | none => some r
      | some m => if r.id > m.id then some r else some m)
    none

/-- `.order_by(last_seen.desc()).first()`. -/
def maxByLastSeenDesc (rows : List Row) : Option Row :=
  rows.foldl
    (fun acc r =>
      match acc with
      | none => some r
      | some m => if r.last_seen > m.last_seen then some r else some m)
    none

/-- `if record_id:` — Python truthiness of `Optional[int]`. -/
def truthyRecordId (s : Snapshot) : Bool :=
  match s.record_id with
  | some rid => rid ≠ 0
  | none => false

/-- Embedding of `upsert_page` from `backend/app/services/pages.py`. -/
def upsert_page (db : DB) (today : Nat) (s : Snapshot) : DB :=
  if truthyRecordId s then
    let rid := s.record_id.getD 0
    match firstWhere (fun r => r.id = rid) db.rows with
    | some existing =>
      { db with
        rows := db.rows.map
          (fun r => if r.id = existing.id then applyUpdate s today r else r) }
    | none =>
      { db with
        rows := db.rows ++ [valuesRow s today db.nextId]
        nextId := db.nextId + 1 }
  else
    match maxByIdDesc (db.rows.filter
        (fun r => r.page_id = s.page_id && r.catalogued = 0)) with
    | some existing =>
      { db with
        rows := db.rows.map
          (fun r => if r.id = existing.id then applyUpdate s today r else r) }
    | none =>
      match maxByLastSeenDesc (db.rows.filter
          (fun r => r.page_id = s.page_id)) with
      | some _ =>
        { db with
          rows := db.rows ++ [valuesRow s today db.nextId]
          nextId := db.nextId + 1 }
      | none =>
        { db with
          rows := db.rows ++ [valuesRow s today db.nextId]
          nextId := db.nextId + 1 }

/-! ### `query_pages` (backend/app/services/pages.py) -/

/-- Does `p` occur at the head of `l`? -/
def leadsWith : List Char → List Char → Bool
  | [], _ => true
  | _ :: _, [] => false
  | p :: ps, c :: cs => p = c && leadsWith ps cs

/-- Substring containment. -/
def containsSub (sub : List Char) : List Char → Bool
  | [] => leadsWith sub []
  | c :: cs => leadsWith sub (c :: cs) || containsSub sub cs

/-- `col LIKE '%sub%'` (MySQL/SQLite default collations are
case-insensitive on ASCII). -/
def likeContains (sub l : List Char) : Bool :=
  containsSub (lowerAscii sub) (lowerAscii l)

/-- JSON string escaping as in `json.dumps`. -/
def jsonEscapeChar (c : Char) : List Char :=
  if c = '\\' then ['\\', '\\']
  else if c = '"' then ['\\', '"']
  else if c = '\n' then ['\\', 'n']
  else if c = '\t' then ['\\', 't']
  else if c = '\r' then ['\\', 'r']
  else if c.toNat = 0x08 then ['\\', 'b']
  else if c.toNat = 0x0c then ['\\', 'f']
  else if c.toNat < 0x20 then '\\' :: 'u' :: '0' :: '0' :: byteHex c.toNat
  else [c]

/-- `", ".join(pieces)`. -/
def joinCommaSp : List (List Char) → List Char
  | [] => []
  | [p] => p
  | p :: ps => p ++ ',' :: ' ' :: joinCommaSp ps

/-- `json.dumps` of a list of strings (SQLAlchemy's serializer for the
JSON column on SQLite stores this text). -/
def jsonArrText (l : List (List Char)) : List Char :=
  '[' ::
    (joinCommaSp (l.map (fun s => '"' :: (s.flatMap jsonEscapeChar ++ ['"'])))
      ++ [']'])

structure QueryArgs where
  coupons : Option Bool := none
  promotions : Option Bool := none
  brands : Option (List (List Char)) := none
  products : Option (List (List Char)) := none
  primary_category : Option (List Char) := none
  vertical : Option (List Char) := none
  template_type : Option (List Char) := none
  status : Option Int := none
  publisher : Option (List Char) := none
  search : Option (List Char) := none
  limit : Nat := 50
  offset : Nat := 0
  sort : Option (List Char) := some (String.toList "page_id:asc")
deriving Repr

inductive Dialect | sqlite | mysql
deriving Repr, DecidableEq

/-- The `latest_subq` grouped subquery: the maximum `last_seen` among
rows of this `page_id` with `catalogued = 1` and a non-null
`airtable_id` (`none` when the group is empty). -/
def maxLastSeenCat (rows : List Row) (pid : List Char) : Option Nat :=
  (rows.filter
      (fun r => r.page_id = pid && r.catalogued = 1 && r.airtable_id ≠ none)).foldl
    (fun acc r =>
      match acc with
      | none => some r.last_seen
      | some m => some (max m r.last_seen))
    none

/-- Python truthiness of an optional string argument (`if search:`). -/
def optStrTruthy (o : Option (List Char)) : Bool :=
  match o with
  | some s => !s.isEmpty
  | none => false

/-- Python truthiness of an optional list argument (`if brands:`). -/
def optListTruthy (o : Option (List (List Char))) : Bool :=
  match o with
  | some l => !l.isEmpty
  | none => false

/-- The WHERE clauses of `query_pages` applied to one row: the join
against `latest_subq`, the Inactive-status exclusion, the hard-coded
domain exclusions, then each optional filter. -/
def queryFilter (dialect : Dialect) (rows : List Row) (a : QueryArgs)
    (r : Row) : Bool :=
  (maxLastSeenCat rows r.page_id = some r.last_seen) &&
  (r.page_status = none || r.page_status ≠ some (String.toList "Inactive")) &&
  (!likeContains (String.toList "usatoday.com") r.url) &&
  (!likeContains (String.toList "gorenewalbyandersen.com") r.url) &&
  (!likeContains (String.toList "carshieldplans.com") r.url) &&
  (match a.coupons with
   | some c => r.has_coupons = c
   | none => true) &&
  (match a.promotions with
   | some p => r.has_promotions = p
   | none => true) &&
  (if optListTruthy a.brands then
    (a.brands.getD []).all (fun b =>
      match dialect with
      | .sqlite =>
        likeContains ('"' :: (b ++ ['"'])) (jsonArrText r.brand_list)
      | .mysql => r.brand_list.any (fun x => x = b))
   else true) &&
  (if optListTruthy a.products then
    (a.products.getD []).all (fun p =>
      match dialect with
      | .sqlite =>
        likeContains ('"' :: (p ++ ['"'])) (jsonArrText r.product_list)
      | .mysql => r.product_list.any (fun x => x = p))
   else true) &&
  (if optStrTruthy a.primary_category then
    r.primary_category = some (a.primary_category.getD [])
   else true) &&
  (if optStrTruthy a.vertical then r.vertical = some (a.vertical.getD [])
   else true) &&
  (if optStrTruthy a.template_type then
    r.template_type = some (a.template_type.getD [])
   else true) &&
  (match a.status with
   | some st => r.status_code = st
   | none => true) &&
  (if optStrTruthy a.publisher then
    likeContains (a.publisher.getD []) r.url
   else true) &&
  (if optStrTruthy a.search then
    likeContains (a.search.getD []) r.url ||
      likeContains (a.search.getD []) r.canonical_url
   else true)

def lexCmp : List Char → List Char → Ordering
  | [], [] => .eq
  | [], _ :: _ => .lt
  | _ :: _, [] => .gt
  | x :: xs, y :: ys =>
    if x < y then .lt else if y < x then .gt else lexCmp xs ys

def cmpOptStr : Option (List Char) → Option (List Char) → Ordering
  | none, none => .eq
  | none, some _ => .lt
  | some _, none => .gt
  | some x, some y => lexCmp x y

def cmpInt (x y : Int) : Ordering :=
  if x < y then .lt else if y < x then .gt else .eq

def cmpNat (x y : Nat) : Ordering :=
  if x < y then .lt else if y < x then .gt else .eq

def cmpOptInt : Option Int → Option Int → Ordering
  | none, none => .eq
  | none, some _ => .lt
  | some _, none => .gt
  | some x, some y => cmpInt x y

def cmpBool (x y : Bool) : Ordering :=
  match x, y with
  | false, true => .lt
  | true, false => .gt
  | _, _ => .eq

/-- `getattr(PageSEMInventory, col, PageSEMInventory.page_id)`:
compare two rows by the named column (NULLs first, the MySQL/SQLite
ascending order), falling back to `page_id` for unknown names. -/
def colCmp (col : List Char) (x y : Row) : Ordering :=
  if col = String.toList "id" then cmpNat x.id y.id
  else if col = String.toList "url" then lexCmp x.url y.url
  else if col = String.toList "canonical_url" then
    lexCmp x.canonical_url y.canonical_url
  else if col = String.toList "status_code" then
    cmpInt x.status_code y.status_code
  else if col = String.toList "primary_category" then
    cmpOptStr x.primary_category y.primary_category
  else if col = String.toList "vertical" then cmpOptStr x.vertical y.vertical
  else if col = String.toList "template_type" then
    cmpOptStr x.template_type y.template_type
  else if col = String.toList "has_coupons" then
    cmpBool x.has_coupons y.has_coupons
  else if col = String.toList "has_promotions" then
    cmpBool x.has_promotions y.has_promotions
  else if col = String.toList "brand_list" then
    lexCmp (jsonArrText x.brand_list) (jsonArrText y.brand_list)
  else if col = String.toList "brand_positions" then
    cmpOptStr x.brand_positions y.brand_positions
  else if col = String.toList "product_list" then
    lexCmp (jsonArrText x.product_list) (jsonArrText y.product_list)
  else if col = String.toList "product_positions" then
    cmpOptStr x.product_positions y.product_positions
  else if col = String.toList "first_seen" then cmpNat x.first_seen y.first_seen
  else if col = String.toList "last_seen" then cmpNat x.last_seen y.last_seen
  else if col = String.toList "sessions" then cmpOptInt x.sessions y.sessions
  else if col = String.toList "ga_key_events_14d" then
    cmpOptInt x.ga_key_events_14d y.ga_key_events_14d
  else if col = String.toList "airtable_id" then
    cmpOptStr x.airtable_id y.airtable_id
  else if col = String.toList "channel" then cmpOptStr x.channel y.channel
  else if col = String.toList "team" then cmpOptStr x.team y.team
  else if col = String.toList "brand" then cmpOptStr x.brand y.brand
  else if col = String.toList "page_status" then
    cmpOptStr x.page_status y.page_status
  else lexCmp x.page_id y.page_id

/-- Stable insertion into a sorted list. -/
def insertSorted (le : Row → Row → Bool) (x : Row) : List Row → List Row
  | [] => [x]
  | y :: ys => if le x y then x :: y :: ys else y :: insertSorted le x ys

/-- Stable sort (models the deterministic ORDER BY output order). -/
def sortRows (le : Row → Row → Bool) : List Row → List Row
  | [] => []
  | x :: xs => insertSorted le x (sortRows le xs)

/-- `sort.partition(":")` and the direction default. -/
def sortSpec (sort : List Char) : List Char × List Char :=
  match splitFirst ':' sort with
  | some (col, dir) => (col, if dir = [] then String.toList "asc" else lowerAscii dir)
  | none => (sort, String.toList "asc")

/-- One row of the `items` result list (the dict built per row,
including the `page_type` looked up from the latest AI extract). -/
structure Item where
  id : Nat
  page_id : List Char
  url : List Char
  canonical_url : List Char
  status_code : Int
  primary_category : Option (List Char)
  vertical : Option (List Char)
  template_type : Option (List Char)
  has_coupons : Bool
  has_promotions : Bool
  brand_list : List (List Char)
  brand_positions : Option (List Char)
  product_list : List (List Char)
  product_positions : Option (List Char)
  first_seen : Option Nat
  last_seen : Option Nat
  sessions : Option Int
  ga_key_events_14d : Option Int
  page_type : Option (List Char)
  airtable_id : Option (List Char)
  channel : Option (List Char)
  team : Option (List Char)
  brand : Option (List Char)
  page_status : Option (List Char)
deriving Repr, DecidableEq

/-- `.order_by(id.desc()).limit(1)` over the AI extracts. -/
def latestExtract (extracts : List ExtractRow) (pid : List Char) :
    Option ExtractRow :=
  (extracts.filter (fun e => e.page_id = pid)).foldl
    (fun acc e =>
      match acc with
      | none => some e
      | some m => if e.id > m.id then some e else some m)
    none

/-- The `page_type` attachment: the latest extract's `data["page_type"]`
when `data` is a dict and the value a string. -/
def pageTypeOf (extracts : List ExtractRow) (pid : List Char) :
    Option (List Char) :=
  match latestExtract extracts pid with
  | some e =>
    match e.data with
    | .jobj kvs =>
      match jgetOpt (kPageType) kvs with
      | some (.jstr s) => some s
      | _ => none
    | _ => none
  | none => none

def toItem (extracts : List ExtractRow) (r : Row) : Item :=
  { id := r.id
    page_id := r.page_id
    url := r.url
    canonical_url := r.canonical_url
    status_code := r.status_code
    primary_category := r.primary_category
    vertical := r.vertical
    template_type := r.template_type
    has_coupons := r.has_coupons
    has_promotions := r.has_promotions
    brand_list := r.brand_list
    brand_positions := r.brand_positions
    product_list := r.product_list
    product_positions := r.product_positions
    first_seen := some r.first_seen
    last_seen := some r.last_seen
    sessions := r.sessions
    ga_key_events_14d := r.ga_key_events_14d
    page_type := pageTypeOf extracts r.page_id
    airtable_id := r.airtable_id
    channel := r.channel
    team := r.team
    brand := r.brand
    page_status := r.page_status }

/-- Embedding of `query_pages` from `backend/app/services/pages.py`:
filter, count, sort, paginate, and build the item dicts. -/
def query_pages (dialect : Dialect) (db : DB) (a : QueryArgs) :
    List Item × Nat :=
  let filtered := db.rows.filter (queryFilter dialect db.rows a)
  let total := filtered.length
  let sorted :=
    match a.sort with
    | some sspec =>
      let (col, dir) := sortSpec sspec
      if dir = String.toList "desc" then
        sortRows (fun x y => colCmp col x y ≠ .lt) filtered
      else
        sortRows (fun x y => colCmp col x y ≠ .gt) filtered
    | none => filtered
  let page := (sorted.drop a.offset).take a.limit
  (page.map (toItem db.aiExtracts), total)

/-! ## Properties of the version store -/

/-- The invariant of §3 of the spec: at most one uncatalogued row per
`page_id`. -/
def AtMostOneUncat (db : DB) : Prop :=
  ∀ pid : List Char,
    (db.rows.filter (fun r => r.page_id = pid && r.catalogued = 0)).length ≤ 1

theorem maxByIdDesc_foldl_mem {l : List Row} {acc : Option Row} {r : Row}
    (h : l.foldl
      (fun acc r =>
        match acc with
        | none => some r
        | some m => if r.id > m.id then some r else some m) acc = some r) :
    acc = some r ∨ r ∈ l := by
  induction l generalizing acc with
  | nil => exact Or.inl h
  | cons x xs ih =>
    simp only [List.foldl_cons] at h
    rcases ih h with h' | h'
    · match acc with
      | none =>
        simp at h'
        exact Or.inr (h' ▸ List.mem_cons_self _ _)
      | some m =>
        dsimp at h'
        split at h'
        · cases h'
          exact Or.inr (List.mem_cons_self _ _)
        · exact Or.inl h'
    · exact Or.inr (List.mem_cons_of_mem _ h')

theorem maxByIdDesc_mem {l : List Row} {r : Row}
    (h : maxByIdDesc l = some r) : r ∈ l := by
  rcases maxByIdDesc_foldl_mem h with h' | h'
  · exact absurd h' (by simp)
  · exact h'

theorem maxByIdDesc_eq_none {l : List Row} (h : maxByIdDesc l = none) :
    l = [] := by
  match l with
  | [] => rfl
  | x :: xs =>
    exfalso
    have : ∀ (ys : List Row) (m : Row),
        ys.foldl
          (fun acc r =>
            match acc with
            | none => some r
            | some m => if r.id > m.id then some r else some m)
          (some m) ≠ none := by
      intro ys
      induction ys with
      | nil => intro m; simp
      | cons y ys ih =>
        intro m
        simp only [List.foldl_cons]
        split <;> exact ih _
    exact this xs x (by simpa [maxByIdDesc] using h)

/-- Updating the rows whose id is `eid` cannot increase the number of
rows satisfying `p'`, provided the update never moves such a row into
the `p'` set. -/
theorem filter_update_len_le (p' : Row → Bool) (u : Row → Row) (eid : Nat)
    (rows : List Row)
    (hu : ∀ r ∈ rows, r.id = eid → p' (u r) = true → p' r = true) :
    ((rows.map (fun r => if r.id = eid then u r else r)).filter p').length
      ≤ (rows.filter p').length := by
  induction rows with
  | nil => simp
  | cons x xs ih =>
    have ihx := ih (fun r hr => hu r (List.mem_cons_of_mem _ hr))
    by_cases hid : x.id = eid
    · by_cases hpu : p' (u x) = true
      · have hpx : p' x = true := hu x (List.mem_cons_self _ _) hid hpu
        simp [hid, hpu, hpx]
        omega
      · simp only [List.map_cons, if_pos hid]
        rw [List.filter_cons_of_neg (by simpa using hpu)]
        by_cases hpx : p' x = true
        · rw [List.filter_cons_of_pos hpx]
          simp only [List.length_cons]
          omega
        · rw [List.filter_cons_of_neg (by simpa using hpx)]
          exact ihx
    · by_cases hpx : p' x = true
      · simp [hid, hpx]
        omega
      · simp only [List.map_cons, if_neg hid]
        rw [List.filter_cons_of_neg (by simpa using hpx),
          List.filter_cons_of_neg (by simpa using hpx)]
        exact ihx

/-! ## Concrete fixtures used by witnesses and counterexamples -/

def baseRow : Row :=
  { id := 1
    page_id := String.toList "p"
    url := String.toList "https://h/p"
    canonical_url := String.toList "https://h/p"
    status_code := 200
    primary_category := none
    vertical := none
    template_type := none
    has_coupons := false
    has_promotions := false
    brand_list := []
    brand_positions := none
    product_list := []
    product_positions := none
    first_seen := 3
    last_seen := 3
    sessions := none
    ga_key_events_14d := none
    airtable_id := none
    channel := none
    team := none
    brand := none
    page_status := none
    catalogued := 0 }

def baseSnap : Snapshot :=
  { page_id := String.toList "p"
    url := String.toList "https://h/p"
    canonical_url := String.toList "https://h/p"
    status_code := 200 }

/-! ## Claim theorems -/

def c1Row : Row :=
  { baseRow with
    primary_category := some (String.toList "Finance")
    vertical := some (String.toList "Financial Services") }

def c1db : DB := ⟨[c1Row], [], 2⟩

/-- C1 (code bug demonstration): the inventory row has non-null
`primary_category` and `vertical`; `upsert_page` is called without
supplying either (both default to `None`), targeting the pending
(uncatalogued) row; after the call both fields of that row are `None`:
`update_cols` unconditionally contains `primary_category` and
`vertical`, so an upsert that omits them nulls the CRM-owned values
instead of leaving them untouched. -/
theorem upsert_page_category_not_protected :
    c1Row.primary_category = some (String.toList "Finance") ∧
    c1Row.vertical = some (String.toList "Financial Services") ∧
    baseSnap.primary_category = none ∧
    baseSnap.vertical = none ∧
    baseSnap.record_id = none ∧
    (upsert_page c1db 5 baseSnap).rows.map Row.primary_category = [none] ∧
    (upsert_page c1db 5 baseSnap).rows.map Row.vertical = [none] := by
  decide

/-- C4 (confirmed): with no explicit `record_id`, when an uncatalogued
row for this `page_id` exists, `upsert_page` overwrites exactly that
row in place: the row list is the pointwise update of the old list (so
the row count is unchanged), the updated row's `last_seen` is today
and its `first_seen` is untouched. -/
theorem upsert_pending_update (db : DB) (today : Nat) (s : Snapshot)
    (hrec : s.record_id = none) (r0 : Row)
    (hfind : maxByIdDesc (db.rows.filter
      (fun r => r.page_id = s.page_id && r.catalogued = 0)) = some r0) :
    (upsert_page db today s).rows =
      db.rows.map (fun r => if r.id = r0.id then applyUpdate s today r else r) ∧
    (upsert_page db today s).rows.length = db.rows.length ∧
    (applyUpdate s today r0).last_seen = today ∧
    (applyUpdate s today r0).first_seen = r0.first_seen := by
  have htr : truthyRecordId s = false := by simp [truthyRecordId, hrec]
  unfold upsert_page
  rw [if_neg (by simp [htr]), hfind]
  refine ⟨rfl, by simp, rfl, rfl⟩

/-- C5 (confirmed): with no explicit `record_id` and no uncatalogued
row for this `page_id`, `upsert_page` appends exactly one brand-new
row with `first_seen = last_seen = today` and leaves every existing
row unchanged (both the already-seen-page and the never-seen-page
branches insert). -/
theorem upsert_insert_branches (db : DB) (today : Nat) (s : Snapshot)
    (hrec : s.record_id = none)
    (hfind : maxByIdDesc (db.rows.filter
      (fun r => r.page_id = s.page_id && r.catalogued = 0)) = none) :
    (upsert_page db today s).rows =
      db.rows ++ [valuesRow s today db.nextId] ∧
    (upsert_page db today s).rows.length = db.rows.length + 1 ∧
    (valuesRow s today db.nextId).first_seen = today ∧
    (valuesRow s today db.nextId).last_seen = today := by
  have htr : truthyRecordId s = false := by simp [truthyRecordId, hrec]
  unfold upsert_page
  rw [if_neg (by simp [htr]), hfind]
  cases hany : maxByLastSeenDesc (db.rows.filter
      (fun r => r.page_id = s.page_id)) with
  | none => exact ⟨rfl, by simp, rfl, rfl⟩
  | some _ => exact ⟨rfl, by simp, rfl, rfl⟩

def c4db : DB := ⟨[baseRow], [], 2⟩

/-- Witness for C4 at a concrete database: one uncatalogued row,
upserted with no `record_id`. -/
theorem upsert_pending_update_witness :
    (upsert_page c4db 5 baseSnap).rows =
      c4db.rows.map
        (fun r => if r.id = baseRow.id then applyUpdate baseSnap 5 r else r) ∧
    (upsert_page c4db 5 baseSnap).rows.length = c4db.rows.length ∧
    (applyUpdate baseSnap 5 baseRow).last_seen = 5 ∧
    (applyUpdate baseSnap 5 baseRow).first_seen = baseRow.first_seen :=
  upsert_pending_update c4db 5 baseSnap rfl baseRow (by decide)

def c5db : DB := ⟨[], [], 1⟩

/-- Witness for C5 at a concrete database: a never-seen `page_id`. -/
theorem upsert_insert_branches_witness :
    (upsert_page c5db 5 baseSnap).rows =
      c5db.rows ++ [valuesRow baseSnap 5 c5db.nextId] ∧
    (upsert_page c5db 5 baseSnap).rows.length = c5db.rows.length + 1 ∧
    (valuesRow baseSnap 5 c5db.nextId).first_seen = 5 ∧
    (valuesRow baseSnap 5 c5db.nextId).last_seen = 5 :=
  upsert_insert_branches c5db 5 baseSnap rfl (by decide)

def c8db : DB := ⟨[baseRow], [], 2⟩

def c8Snap : Snapshot := { baseSnap with record_id := some 0 }

/-- C8 counterexample: `record_id = 0` is an explicit record id, and
no row with primary key 0 exists, so the claim requires the call to
insert a new row; because `if record_id:` treats 0 as falsy, the code
instead takes the pending-update path and mutates the existing
uncatalogued row, leaving the row count at 1 instead of 2. -/
theorem upsert_record_id_zero_cex :
    c8Snap.record_id = some 0 ∧
    (∀ r ∈ c8db.rows, r.id ≠ 0) ∧
    (upsert_page c8db 7 c8Snap).rows.length = c8db.rows.length ∧
    ¬ (upsert_page c8db 7 c8Snap).rows.length = c8db.rows.length + 1 := by
  decide

/-- C8 (amended): when `upsert_page` is called with an explicit
*non-zero* `record_id`, if a row with that primary key exists all its
mutable fields are overwritten in place from the snapshot (the row
list is the pointwise update, count unchanged); if no such row exists
the call inserts a new row from the snapshot instead of raising. -/
theorem upsert_explicit_record_id (db : DB) (today : Nat) (s : Snapshot)
    (rid : Nat) (hrid : s.record_id = some rid) (hnz : rid ≠ 0) :
    (∀ e, firstWhere (fun r => r.id = rid) db.rows = some e →
      (upsert_page db today s).rows =
        db.rows.map
          (fun r => if r.id = e.id then applyUpdate s today r else r) ∧
      (upsert_page db today s).rows.length = db.rows.length) ∧
    (firstWhere (fun r => r.id = rid) db.rows = none →
      (upsert_page db today s).rows =
        db.rows ++ [valuesRow s today db.nextId] ∧
      (upsert_page db today s).rows.length = db.rows.length + 1) := by
  have htr : truthyRecordId s = true := by simp [truthyRecordId, hrid, hnz]
  have hgd : s.record_id.getD 0 = rid := by rw [hrid]; rfl
  constructor
  · intro e he
    unfold upsert_page
    rw [if_pos (by simp [htr]), hgd]
    dsimp only
    rw [he]
    exact ⟨rfl, by simp⟩
  · intro hnone
    unfold upsert_page
    rw [if_pos (by simp [htr]), hgd]
    dsimp only
    rw [hnone]
    exact ⟨rfl, by simp⟩

def c8wSnap : Snapshot := { baseSnap with record_id := some 1 }

/-- Witness for C8 at a concrete database (row id 1 exists, and also
the insert arm's hypothesis is vacuously applicable). -/
theorem upsert_explicit_record_id_witness :
    ((∀ e, firstWhere (fun r => r.id = 1) c8db.rows = some e →
      (upsert_page c8db 7 c8wSnap).rows =
        c8db.rows.map
          (fun r => if r.id = e.id then applyUpdate c8wSnap 7 r else r) ∧
      (upsert_page c8db 7 c8wSnap).rows.length = c8db.rows.length) ∧
    (firstWhere (fun r => r.id = 1) c8db.rows = none →
      (upsert_page c8db 7 c8wSnap).rows =
        c8db.rows ++ [valuesRow c8wSnap 7 c8db.nextId] ∧
      (upsert_page c8db 7 c8wSnap).rows.length = c8db.rows.length + 1)) :=
  upsert_explicit_record_id c8db 7 c8wSnap 1 rfl (by decide)

def c2Snap : Snapshot :=
  { baseSnap with status_code := 0, record_id := some 99 }

def c2db : DB := ⟨[baseRow], [], 2⟩

/-- C2 counterexample: the invariant holds of the starting database
(one uncatalogued row for page `p`), but one `upsert_page` call with
an explicit `record_id` that matches no row (and `status_code = 0`,
so the inserted row is uncatalogued) produces two uncatalogued rows
for `p`; so `upsert_page` with an explicit `record_id` does not
preserve the at-most-one-uncatalogued-row-per-`page_id` invariant. -/
theorem upsert_uncat_invariant_cex :
    AtMostOneUncat c2db ∧ ¬ AtMostOneUncat (upsert_page c2db 7 c2Snap) := by
  constructor
  · intro pid
    exact le_trans (List.length_filter_le _ _) (by decide)
  · intro h
    exact absurd (h (String.toList "p")) (by decide)

/-- C2 (amended): `upsert_page` preserves the
at-most-one-uncatalogued-row-per-`page_id` invariant for every call
*without* an explicit `record_id` (on a database whose row ids are
distinct, as the autoincrement primary key guarantees). -/
theorem upsert_preserves_uncat_invariant (db : DB) (today : Nat)
    (s : Snapshot) (hrec : s.record_id = none)
    (hids : (db.rows.map Row.id).Nodup)
    (hinv : AtMostOneUncat db) :
    AtMostOneUncat (upsert_page db today s) := by
  intro pid
  have htr : truthyRecordId s = false := by simp [truthyRecordId, hrec]
  unfold upsert_page
  rw [if_neg (by simp [htr])]
  cases hfind : maxByIdDesc (db.rows.filter
      (fun r => r.page_id = s.page_id && r.catalogued = 0)) with
  | some e =>
    have he := maxByIdDesc_mem hfind
    have hemem : e ∈ db.rows := List.mem_of_mem_filter he
    have hef := List.of_mem_filter he
    dsimp only
    refine le_trans (filter_update_len_le _ _ _ _ ?_) (hinv pid)
    intro r hr hrid hpu
    have hre : r = e := List.inj_on_of_nodup_map hids hr hemem hrid
    subst hre
    simp only [applyUpdate] at hpu
    simp only [Bool.and_eq_true, decide_eq_true_eq] at hpu hef ⊢
    exact ⟨hpu.1, hef.2⟩
  | none =>
    have hnil := maxByIdDesc_eq_none hfind
    dsimp only
    have hrows :
        (match maxByLastSeenDesc (db.rows.filter
            (fun r => r.page_id = s.page_id)) with
          | some _ =>
            { db with
              rows := db.rows ++ [valuesRow s today db.nextId]
              nextId := db.nextId + 1 }
          | none =>
            { db with
              rows := db.rows ++ [valuesRow s today db.nextId]
              nextId := db.nextId + 1 } : DB).rows
          = db.rows ++ [valuesRow s today db.nextId] := by
      cases maxByLastSeenDesc (db.rows.filter
          (fun r => r.page_id = s.page_id)) <;> rfl
    rw [hrows, List.filter_append, List.length_append]
    by_cases hp : ((valuesRow s today db.nextId).page_id = pid &&
        (valuesRow s today db.nextId).catalogued = 0) = true
    · have hp' := hp
      simp only [valuesRow, Bool.and_eq_true, decide_eq_true_eq] at hp'
      have hpid : s.page_id = pid := hp'.1
      subst hpid
      rw [hnil]
      simp [hp]
    · rw [List.filter_cons_of_neg (by simpa using hp)]
      simpa using hinv pid

/-! ## Well-shaped extraction results and the C9 spec-side definitions -/

theorem ok_bind {α β : Type} (a : α) (f : α → Except String β) :
    (Except.ok a >>= f) = f a := rfl

/-- A field value that is a string or null/absent (the shape the
extraction schema produces). -/
def strOrNull : JVal → Bool
  | .null => true
  | .jstr _ => true
  | _ => false

def fieldOf (kvs : List (List Char × JVal)) (k : List Char) : JVal :=
  (jgetOpt k kvs).getD .null

/-- A listing entry as the extraction schema shapes it: a dict whose
name/position/location fields, if present, are strings or null. -/
def wellShapedListing : JVal → Bool
  | .jobj kvs =>
    strOrNull (fieldOf kvs kBrandName) &&
    strOrNull (fieldOf kvs kPosition) &&
    strOrNull (fieldOf kvs kLocation) &&
    strOrNull (fieldOf kvs kProductName) &&
    strOrNull (fieldOf kvs kProductOfferName)
  | _ => false

def wellShapedBrand : JVal → Bool
  | .jobj kvs => strOrNull (fieldOf kvs kBrandName)
  | _ => false

/-- A well-shaped extraction result: `listings` a list of well-shaped
listings, `other_promotions` anything with a `len`, `brands` a list of
dicts with string-or-null `brand_name`.  (A non-dict input is
well-shaped: `reconcile_one` defaults all three to `[]`.) -/
def wellShapedData (data : JVal) : Bool :=
  (match getIfDict data (kListings) with
   | .jarr l => l.all wellShapedListing
   | _ => false) &&
  (match getIfDict data (kOtherPromotions) with
   | .jarr _ => true
   | .jstr _ => true
   | .jobj _ => true
   | _ => false) &&
  (match getIfDict data (kBrands) with
   | .jarr l => l.all wellShapedBrand
   | _ => false)

/-- The listings list of an extraction result (the claims' view). -/
def claimListings (data : JVal) : List JVal :=
  match getIfDict data (kListings) with
  | .jarr l => l
  | _ => []

/-- A string field of a listing, as the C9 claim reads it (absent or
null means no value, rendered as the empty string). -/
def fieldStr (li : JVal) (k : List Char) : List Char :=
  match li with
  | .jobj kvs =>
    match jgetOpt k kvs with
    | some (.jstr s) => s
    | _ => []
  | _ => []

/-- C9's qualifying condition, literally as the spec sentence states
it: the location tag *is* `"main_list"` (no trimming), and brand name
and position label are non-empty after trimming. -/
def specQualifies (li : JVal) : Bool :=
  !(pyStrip (fieldStr li kBrandName)).isEmpty &&
  !(pyStrip (fieldStr li kPosition)).isEmpty &&
  fieldStr li kLocation = kMainList

def specEntry (li : JVal) : List Char :=
  pyStrip (fieldStr li kBrandName) ++ ':' :: pyStrip (fieldStr li kPosition)

/-- `brand_positions` as the C9 claim describes it. -/
def specBrandPositions (data : JVal) : Option (List Char) :=
  let entries := ((claimListings data).filter specQualifies).map specEntry
  if entries.isEmpty then none else some (joinSemiSp entries)

/-- The location tag as the code computes it before trimming: a
missing, null or empty location defaults to `"other"`. -/
def locationTag (li : JVal) : List Char :=
  match li with
  | .jobj kvs =>
    match jgetOpt (kLocation) kvs with
    | some (.jstr s) => if s.isEmpty then kOther else s
    | _ => kOther
  | _ => kOther

/-- C9's qualifying condition amended: the location tag equals
`"main_list"` after trimming (missing/empty location defaulting to
`"other"`). -/
def specQualifiesTrimLoc (li : JVal) : Bool :=
  !(pyStrip (fieldStr li kBrandName)).isEmpty &&
  !(pyStrip (fieldStr li kPosition)).isEmpty &&
  pyStrip (locationTag li) = kMainList

/-- `brand_positions` as amended. -/
def specBrandPositionsTrimLoc (data : JVal) : Option (List Char) :=
  let entries := ((claimListings data).filter specQualifiesTrimLoc).map specEntry
  if entries.isEmpty then none else some (joinSemiSp entries)

/-! Helper lemmas: the stripped-field computations of the reconciler
reduce to `pyStrip` of the claim's field projections. -/

theorem dictGet_jobj (kvs : List (List Char × JVal)) (k : List Char)
    (d : JVal) : dictGet (.jobj kvs) k d = .ok ((jgetOpt k kvs).getD d) := rfl

theorem jstrip_jor_field (kvs : List (List Char × JVal)) (k : List Char)
    (h : strOrNull (fieldOf kvs k) = true) :
    jstrip (jor (fieldOf kvs k) (.jstr [])) =
      .ok (pyStrip (fieldStr (.jobj kvs) k)) := by
  simp only [fieldOf] at *
  cases hq : jgetOpt k kvs with
  | none => simp [hq, jor, truthy, jstrip, fieldStr]
  | some v =>
    rw [hq] at h
    cases v with
    | null => simp [hq, jor, truthy, jstrip, fieldStr]
    | jstr s =>
      cases s with
      | nil => simp [hq, jor, truthy, jstrip, fieldStr, pyStrip]
      | cons a b => simp [hq, jor, truthy, jstrip, fieldStr]
    | jbool b => simp [strOrNull] at h
    | jnum n => simp [strOrNull] at h
    | jarr l => simp [strOrNull] at h
    | jobj l => simp [strOrNull] at h

theorem jstrip_jor_loc (kvs : List (List Char × JVal))
    (h : strOrNull (fieldOf kvs kLocation) = true) :
    jstrip (jor (fieldOf kvs kLocation) (.jstr kOther)) =
      .ok (pyStrip (locationTag (.jobj kvs))) := by
  simp only [fieldOf] at *
  cases hq : jgetOpt kLocation kvs with
  | none => simp [hq, jor, truthy, jstrip, locationTag]
  | some v =>
    rw [hq] at h
    cases v with
    | null => simp [hq, jor, truthy, jstrip, locationTag]
    | jstr s =>
      cases s with
      | nil => simp [hq, jor, truthy, jstrip, locationTag, kOther, pyStrip]
      | cons a b => simp [hq, jor, truthy, jstrip, locationTag]
    | jbool b => simp [strOrNull] at h
    | jnum n => simp [strOrNull] at h
    | jarr l => simp [strOrNull] at h
    | jobj l => simp [strOrNull] at h

theorem anyPromo_ok (l : List JVal) (h : l.all wellShapedListing = true) :
    ∃ b, anyPromo l = .ok b := by
  induction l with
  | nil => exact ⟨false, rfl⟩
  | cons li rest ih =>
    simp only [List.all_cons, Bool.and_eq_true] at h
    obtain ⟨hli, hrest⟩ := h
    cases li with
    | jobj kvs =>
      simp only [anyPromo, dictGet, ok_bind]
      by_cases ht : truthy ((jgetOpt kHasPromotion kvs).getD .null) = true
      · exact ⟨true, by simp [ht]⟩
      · obtain ⟨b, hb⟩ := ih hrest
        exact ⟨b, by simp [ht, hb]⟩
    | null => simp [wellShapedListing] at hli
    | jbool b => simp [wellShapedListing] at hli
    | jnum n => simp [wellShapedListing] at hli
    | jstr s => simp [wellShapedListing] at hli
    | jarr a => simp [wellShapedListing] at hli

theorem listCompGet_ok (k : List Char) (l : List JVal)
    (h : ∀ b ∈ l, ∃ kvs, b = .jobj kvs ∧ strOrNull (fieldOf kvs k) = true) :
    ∃ gs, listCompGet k l = .ok gs ∧ ∀ g ∈ gs, ∃ s, g = .jstr s := by
  induction l with
  | nil => exact ⟨[], rfl, by simp⟩
  | cons b rest ih =>
    obtain ⟨kvs, rfl, hf⟩ := h b (List.mem_cons_self _ _)
    obtain ⟨gs, hgs, hstr⟩ := ih (fun b hb => h b (List.mem_cons_of_mem _ hb))
    simp only [listCompGet, dictGet, ok_bind, hgs]
    simp only [fieldOf] at hf
    set g := (jgetOpt k kvs).getD .null with hgdef
    by_cases ht : truthy g = true
    · refine ⟨g :: gs, by simp [ht], ?_⟩
      intro x hx
      rcases List.mem_cons.mp hx with rfl | hx'
      · cases hg : g with
        | jstr s => exact ⟨s, rfl⟩
        | null => rw [hg] at ht; simp [truthy] at ht
        | jbool bb =>
          exfalso
          rw [hg] at hf
          simp [strOrNull] at hf
        | jnum n =>
          exfalso
          rw [hg] at hf
          simp [strOrNull] at hf
        | jarr a =>
          exfalso
          rw [hg] at hf
          simp [strOrNull] at hf
        | jobj o =>
          exfalso
          rw [hg] at hf
          simp [strOrNull] at hf
      · exact hstr x hx'
    · exact ⟨gs, by simp [ht], hstr⟩

theorem stripAll_ok (gs : List JVal) (h : ∀ g ∈ gs, ∃ s, g = .jstr s) :
    ∃ out, stripAll gs = .ok out := by
  induction gs with
  | nil => exact ⟨[], rfl⟩
  | cons g rest ih =>
    obtain ⟨s, rfl⟩ := h g (List.mem_cons_self _ _)
    obtain ⟨out, hout⟩ := ih (fun g hg => h g (List.mem_cons_of_mem _ hg))
    cases s with
    | nil =>
      exact ⟨pyStrip [] :: out, by simp [stripAll, jor, truthy, jstrip, hout, ok_bind]⟩
    | cons a b =>
      exact ⟨pyStrip (a :: b) :: out,
        by simp [stripAll, jor, truthy, jstrip, hout, ok_bind]⟩

theorem brandPositionsLoop_spec (l : List JVal)
    (h : l.all wellShapedListing = true) :
    brandPositionsLoop l =
      .ok ((l.filter specQualifiesTrimLoc).map specEntry) := by
  induction l with
  | nil => rfl
  | cons li rest ih =>
    simp only [List.all_cons, Bool.and_eq_true] at h
    obtain ⟨hli, hrest⟩ := h
    cases li with
    | jobj kvs =>
      simp only [wellShapedListing, Bool.and_eq_true] at hli
      obtain ⟨⟨⟨⟨hbn, hpos⟩, hloc⟩, h4⟩, h5⟩ := hli
      simp only [brandPositionsLoop]
      rw [dictGet_jobj, ok_bind, show (jgetOpt kBrandName kvs).getD .null =
          fieldOf kvs kBrandName from rfl,
        jstrip_jor_field kvs kBrandName hbn, ok_bind,
        dictGet_jobj, ok_bind, show (jgetOpt kPosition kvs).getD .null =
          fieldOf kvs kPosition from rfl,
        jstrip_jor_field kvs kPosition hpos, ok_bind,
        dictGet_jobj, ok_bind, show (jgetOpt kLocation kvs).getD .null =
          fieldOf kvs kLocation from rfl,
        jstrip_jor_loc kvs hloc, ok_bind, ih hrest, ok_bind]
      by_cases hq : specQualifiesTrimLoc (.jobj kvs) = true
      · have hq' := hq
        simp only [specQualifiesTrimLoc, Bool.and_eq_true] at hq'
        rw [List.filter_cons_of_pos hq]
        simp only [List.map_cons, specEntry]
        rw [if_pos (by simp [hq'.1.1, hq'.1.2, hq'.2])]
      · rw [List.filter_cons_of_neg (by simpa using hq)]
        rw [if_neg (by
          intro hcon
          apply hq
          simp only [Bool.and_eq_true, Bool.not_eq_true', decide_eq_true_eq]
            at hcon
          simp [specQualifiesTrimLoc, hcon.1.1, hcon.1.2, hcon.2,
            Bool.not_eq_true', List.isEmpty_eq_false]
          )]
    | null => simp [wellShapedListing] at hli
    | jbool b => simp [wellShapedListing] at hli
    | jnum n => simp [wellShapedListing] at hli
    | jstr s => simp [wellShapedListing] at hli
    | jarr a => simp [wellShapedListing] at hli

theorem jstrip_fieldOf_ok (kvs : List (List Char × JVal)) (k : List Char)
    (h : strOrNull (fieldOf kvs k) = true)
    (ht : truthy (fieldOf kvs k) = true) :
    ∃ s, jstrip (fieldOf kvs k) = .ok s := by
  cases hg : fieldOf kvs k with
  | jstr s => exact ⟨pyStrip s, rfl⟩
  | null => rw [hg] at ht; simp [truthy] at ht
  | jbool b => rw [hg] at h; simp [strOrNull] at h
  | jnum n => rw [hg] at h; simp [strOrNull] at h
  | jarr l => rw [hg] at h; simp [strOrNull] at h
  | jobj l => rw [hg] at h; simp [strOrNull] at h

theorem prodName_ok (kvs : List (List Char × JVal))
    (h1 : strOrNull (fieldOf kvs kProductName) = true)
    (h2 : strOrNull (fieldOf kvs kProductOfferName) = true) :
    ∃ s, prodName (.jobj kvs) = .ok s := by
  simp only [prodName, dictGet_jobj, ok_bind]
  by_cases ht : truthy ((jgetOpt kProductName kvs).getD .null) = true
  · rw [if_pos ht]
    exact jstrip_fieldOf_ok kvs kProductName h1 ht
  · rw [if_neg ht]
    exact ⟨_, by
      rw [show (jgetOpt kProductOfferName kvs).getD .null =
        fieldOf kvs kProductOfferName from rfl,
        jstrip_jor_field kvs kProductOfferName h2]⟩

theorem productNamesLoop_ok (l : List JVal)
    (h : l.all wellShapedListing = true) :
    ∃ out, productNamesLoop l = .ok out := by
  induction l with
  | nil => exact ⟨[], rfl⟩
  | cons li rest ih =>
    simp only [List.all_cons, Bool.and_eq_true] at h
    obtain ⟨hli, hrest⟩ := h
    obtain ⟨out, hout⟩ := ih hrest
    cases li with
    | jobj kvs =>
      simp only [wellShapedListing, Bool.and_eq_true] at hli
      obtain ⟨⟨⟨⟨hbn, hpos⟩, hloc⟩, h4⟩, h5⟩ := hli
      obtain ⟨s, hs⟩ := prodName_ok kvs h4 h5
      simp only [productNamesLoop, hs, ok_bind, hout]
      by_cases he : s.isEmpty <;> [exact ⟨out, by simp [he]⟩;
        exact ⟨s :: out, by simp [he]⟩]
    | null => simp [wellShapedListing] at hli
    | jbool b => simp [wellShapedListing] at hli
    | jnum n => simp [wellShapedListing] at hli
    | jstr s => simp [wellShapedListing] at hli
    | jarr a => simp [wellShapedListing] at hli

theorem productPositionsLoop_ok (l : List JVal)
    (h : l.all wellShapedListing = true) :
    ∃ out, productPositionsLoop l = .ok out := by
  induction l with
  | nil => exact ⟨[], rfl⟩
  | cons li rest ih =>
    simp only [List.all_cons, Bool.and_eq_true] at h
    obtain ⟨hli, hrest⟩ := h
    obtain ⟨out, hout⟩ := ih hrest
    cases li with
    | jobj kvs =>
      simp only [wellShapedListing, Bool.and_eq_true] at hli
      obtain ⟨⟨⟨⟨hbn, hpos⟩, hloc⟩, h4⟩, h5⟩ := hli
      obtain ⟨s, hs⟩ := prodName_ok kvs h4 h5
      simp only [productPositionsLoop, hs, ok_bind, dictGet_jobj]
      rw [show (jgetOpt kPosition kvs).getD .null =
          fieldOf kvs kPosition from rfl,
        jstrip_jor_field kvs kPosition hpos, ok_bind,
        show (jgetOpt kLocation kvs).getD .null =
          fieldOf kvs kLocation from rfl,
        jstrip_jor_loc kvs hloc, ok_bind, hout, ok_bind]
      by_cases hc : (!s.isEmpty &&
          !(pyStrip (fieldStr (.jobj kvs) kPosition)).isEmpty &&
          decide (pyStrip (locationTag (.jobj kvs)) = kMainList)) = true
      · exact ⟨_, by rw [if_pos hc]⟩
      · exact ⟨_, by rw [if_neg hc]⟩
    | null => simp [wellShapedListing] at hli
    | jbool b => simp [wellShapedListing] at hli
    | jnum n => simp [wellShapedListing] at hli
    | jstr s => simp [wellShapedListing] at hli
    | jarr a => simp [wellShapedListing] at hli

/-- Under a well-shaped extraction result, `reconcile_one` succeeds,
and its `brand_positions` is exactly the (location-trimmed) spec
value. -/
theorem reconcile_one_ok (data : JVal) (hd : wellShapedData data = true) :
    ∃ r, reconcile_one data = .ok r ∧
      r.brand_positions = specBrandPositionsTrimLoc data := by
  have hd' := hd
  simp only [wellShapedData, Bool.and_eq_true] at hd'
  obtain ⟨⟨hL, hO⟩, hB⟩ := hd'
  cases hls : getIfDict data kListings with
  | jarr lis =>
    rw [hls] at hL
    cases hbs : getIfDict data kBrands with
    | jarr bs =>
      rw [hbs] at hB
      have hLs : lis.all wellShapedListing = true := by simpa using hL
      have hBs : ∀ b ∈ bs, ∃ kvs, b = .jobj kvs ∧
          strOrNull (fieldOf kvs kBrandName) = true := by
        intro b hb
        have hwb := List.all_eq_true.mp (by simpa using hB) b hb
        cases b with
        | jobj kvs => exact ⟨kvs, rfl, by simpa [wellShapedBrand] using hwb⟩
        | null => simp [wellShapedBrand] at hwb
        | jbool x => simp [wellShapedBrand] at hwb
        | jnum x => simp [wellShapedBrand] at hwb
        | jstr x => simp [wellShapedBrand] at hwb
        | jarr x => simp [wellShapedBrand] at hwb
      have hLs' : ∀ li ∈ lis, ∃ kvs, li = .jobj kvs ∧
          strOrNull (fieldOf kvs kBrandName) = true := by
        intro li hli
        have hwl := List.all_eq_true.mp hLs li hli
        cases li with
        | jobj kvs =>
          simp only [wellShapedListing, Bool.and_eq_true] at hwl
          exact ⟨kvs, rfl, hwl.1.1.1.1⟩
        | null => simp [wellShapedListing] at hwl
        | jbool x => simp [wellShapedListing] at hwl
        | jnum x => simp [wellShapedListing] at hwl
        | jstr x => simp [wellShapedListing] at hwl
        | jarr x => simp [wellShapedListing] at hwl
      obtain ⟨bAny, hAny⟩ := anyPromo_ok lis hLs
      obtain ⟨gsB, hgsB, hstrB⟩ := listCompGet_ok kBrandName bs hBs
      obtain ⟨gsL, hgsL, hstrL⟩ := listCompGet_ok kBrandName lis hLs'
      have hpos := brandPositionsLoop_spec lis hLs
      obtain ⟨pn0, hpn0⟩ := productNamesLoop_ok lis hLs
      obtain ⟨ppos, hppos⟩ := productPositionsLoop_ok lis hLs
      have hlen : ∃ n, jlen (getIfDict data kOtherPromotions) = .ok n := by
        cases hop : getIfDict data kOtherPromotions with
        | jarr x => exact ⟨x.length, rfl⟩
        | jstr x => exact ⟨x.length, rfl⟩
        | jobj x => exact ⟨x.length, rfl⟩
        | null => rw [hop] at hO; simp at hO
        | jbool x => rw [hop] at hO; simp at hO
        | jnum x => rw [hop] at hO; simp at hO
      obtain ⟨nOP, hnOP⟩ := hlen
      have hhp : ∃ hp,
          orLenPositive bAny (getIfDict data kOtherPromotions) = .ok hp := by
        cases bAny with
        | true => exact ⟨true, rfl⟩
        | false =>
          exact ⟨decide (0 < nOP), by simp [orLenPositive, hnOP, ok_bind]⟩
      obtain ⟨hp, hhp⟩ := hhp
      have hbn1 : ∃ bn1, brandNamesSource gsB lis = .ok bn1 ∧
          ∀ g ∈ bn1, ∃ s, g = .jstr s := by
        by_cases hge : gsB.isEmpty
        · exact ⟨gsL, by
            unfold brandNamesSource
            rw [if_pos hge]
            exact hgsL, hstrL⟩
        · exact ⟨gsB, by
            unfold brandNamesSource
            rw [if_neg hge], hstrB⟩
      obtain ⟨bn1, hbn1, hstr1⟩ := hbn1
      obtain ⟨stripped, hstripped⟩ := stripAll_ok bn1 hstr1
      refine ⟨⟨hp,
        (dedupeKeepFirst stripped).filter (fun b => !b.isEmpty),
        if !((lis.filter specQualifiesTrimLoc).map specEntry).isEmpty then
          some (joinSemiSp ((lis.filter specQualifiesTrimLoc).map specEntry))
        else none,
        (dedupeKeepFirst (pn0.map pyStrip)).filter (fun p => !p.isEmpty),
        if !ppos.isEmpty then some (joinSemiSp ppos) else none⟩, ?_, ?_⟩
      · simp only [reconcile_one, hls, hbs, jiter, ok_bind, hAny, hhp,
          hgsB, hbn1, hstripped, hpos, hpn0, hppos]
        rfl
      · simp only [specBrandPositionsTrimLoc, claimListings, hls]
        by_cases he : ((lis.filter specQualifiesTrimLoc).map specEntry).isEmpty
        · simp [he]
        · simp [he]
    | null => rw [hbs] at hB; simp at hB
    | jbool x => rw [hbs] at hB; simp at hB
    | jnum x => rw [hbs] at hB; simp at hB
    | jstr x => rw [hbs] at hB; simp at hB
    | jobj x => rw [hbs] at hB; simp at hB
  | null => rw [hls] at hL; simp at hL
  | jbool x => rw [hls] at hL; simp at hL
  | jnum x => rw [hls] at hL; simp at hL
  | jstr x => rw [hls] at hL; simp at hL
  | jobj x => rw [hls] at hL; simp at hL

def c9data : JVal :=
  JVal.jobj [(kListings, JVal.jarr [JVal.jobj
    [(kBrandName, JVal.jstr (String.toList "A")),
     (kPosition, JVal.jstr (String.toList "1")),
     (kLocation, JVal.jstr (String.toList " main_list"))]])]

/-- C9 counterexample: for a listing whose location tag is
`" main_list"` (with a leading space), the claim's description — the
location tag *is* `"main_list"` — makes the listing non-qualifying, so
`brand_positions` should be `None`; the code strips the location
before comparing and emits `"A:1"`. -/
theorem brand_positions_location_trim_cex :
    (reconcile_one c9data).map Reconciled.brand_positions =
      .ok (some (String.toList "A:1")) ∧
    specBrandPositions c9data = none := by decide

/-- C9 (amended): for every well-shaped extraction result,
`brand_positions` is the `"; "`-joined list of `"brand:position"`
strings, one for each listing whose location tag equals `"main_list"`
*after trimming* (missing/empty locations defaulting to `"other"`)
and whose brand name and position label are both non-empty after
trimming, and is `None` when no listing qualifies. -/
theorem brand_positions_spec_trimmed (data : JVal)
    (hd : wellShapedData data = true) (r : Reconciled)
    (hr : reconcile_one data = .ok r) :
    r.brand_positions = specBrandPositionsTrimLoc data := by
  obtain ⟨r', h1, h2⟩ := reconcile_one_ok data hd
  rw [hr] at h1
  rw [Except.ok.inj h1]
  exact h2

/-- Witness for C9 (amended) at the concrete extraction result. -/
theorem brand_positions_spec_trimmed_witness :
    (⟨false, [String.toList "A"], some (String.toList "A:1"), [],
      none⟩ : Reconciled).brand_positions =
      specBrandPositionsTrimLoc c9data :=
  brand_positions_spec_trimmed c9data (by decide) _ (by decide)

/-- C7 counterexample: the pure core is not total — `normalize_url`
(and hence `page_id_from_canonical`) raises
`ValueError("Invalid IPv6 URL")` on `"https://["`, and
`reconcile_one` raises `TypeError` on the odd-shaped extraction dict
whose `listings` is the number 5. -/
theorem pure_core_raises_cex :
    normalize_url (String.toList "https://[") =
      .error "Invalid IPv6 URL" ∧
    page_id_from_canonical (String.toList "https://[") =
      .error "Invalid IPv6 URL" ∧
    reconcile_one (JVal.jobj [(kListings, JVal.jnum 5)]) =
      .error "TypeError: not iterable" := by decide

/-! Totality of the pure core away from the failing inputs. -/

theorem splitFirst_snd_mem (sep : Char) (l a b : List Char)
    (h : splitFirst sep l = some (a, b)) : ∀ c ∈ b, c ∈ l := by
  induction l generalizing a b with
  | nil => simp [splitFirst] at h
  | cons x xs ih =>
    simp only [splitFirst] at h
    by_cases hx : x = sep
    · rw [if_pos hx] at h
      injection h with h
      injection h with h1 h2
      subst h2
      intro c hc
      exact List.mem_cons_of_mem _ hc
    · rw [if_neg hx] at h
      cases hsf : splitFirst sep xs with
      | none => rw [hsf] at h; simp at h
      | some p =>
        obtain ⟨p1, p2⟩ := p
        rw [hsf] at h
        simp only [Option.map_some', Option.some.injEq, Prod.mk.injEq] at h
        obtain ⟨h1, h2⟩ := h
        subst h2
        intro c hc
        exact List.mem_cons_of_mem _ (ih p1 _ hsf c hc)

theorem schemeSplit_snd_mem (l : List Char) :
    ∀ c ∈ (schemeSplit l).2, c ∈ l := by
  intro c hc
  unfold schemeSplit at hc
  cases hsf : splitFirst ':' l with
  | none => rw [hsf] at hc; exact hc
  | some p =>
    obtain ⟨p1, p2⟩ := p
    rw [hsf] at hc
    dsimp only at hc
    split at hc
    · exact splitFirst_snd_mem ':' l p1 p2 hsf c hc
    · exact hc

theorem urlsplitE_ok (u : List Char) (hl : '[' ∉ u) (hr : ']' ∉ u) :
    ∃ r, urlsplitE u = .ok r := by
  unfold urlsplitE
  dsimp only
  have hsub1 : ∀ c ∈ removeUnsafe (lstripC0 u), c ∈ u := by
    intro c hc
    exact (List.dropWhile_sublist _).subset (List.mem_of_mem_filter hc)
  rcases hss : schemeSplit (removeUnsafe (lstripC0 u)) with ⟨sch, url2⟩
  have hsub2 : ∀ c ∈ url2, c ∈ u := by
    intro c hc
    exact hsub1 c (schemeSplit_snd_mem _ c (by rw [hss]; exact hc))
  dsimp only
  by_cases h2 : url2.take 2 = ['/', '/']
  · rw [if_pos h2]
    have hnl : '[' ∉ (url2.drop 2).takeWhile (fun c => !isNetlocDelim c) := by
      intro hmem
      exact hl (hsub2 _ (List.drop_subset _ _
        ((List.takeWhile_sublist _).subset hmem)))
    have hnr : ']' ∉ (url2.drop 2).takeWhile (fun c => !isNetlocDelim c) := by
      intro hmem
      exact hr (hsub2 _ (List.drop_subset _ _
        ((List.takeWhile_sublist _).subset hmem)))
    rw [if_neg (by simp [hnl, hnr])]
    exact ⟨_, rfl⟩
  · rw [if_neg h2]
    exact ⟨_, rfl⟩

theorem urlparseE_ok (u : List Char) (hl : '[' ∉ u) (hr : ']' ∉ u) :
    ∃ p, urlparseE u = .ok p := by
  obtain ⟨r, hrr⟩ := urlsplitE_ok u hl hr
  unfold urlparseE
  rw [hrr, ok_bind]
  by_cases hc : (r.scheme ∈ uses_params && ';' ∈ r.path) = true
  · rw [if_pos hc]
    rcases hsp : splitparams r.path with ⟨a, b⟩
    exact ⟨_, rfl⟩
  · rw [if_neg hc]
    exact ⟨_, rfl⟩

theorem normalize_url_ok (u : List Char) (hl : '[' ∉ u) (hr : ']' ∉ u) :
    ∃ v, normalize_url u = .ok v := by
  obtain ⟨p, hp⟩ := urlparseE_ok u hl hr
  unfold normalize_url
  rw [hp, ok_bind]
  exact ⟨_, rfl⟩

/-- C7 (amended): `normalize_url` and `page_id_from_canonical` return
a result without raising for every ASCII input containing no square
brackets, and `reconcile_one` returns a result without raising for
every well-shaped extraction value (missing fields and non-dict inputs
included); malformed inputs are handled best-effort rather than
failing.  The brackets exclusion rules out `urlsplit`'s
`ValueError("Invalid IPv6 URL")`; the ASCII restriction keeps the
statement inside the embedding's faithful domain, since CPython's
`urlsplit` additionally runs `_checknetloc`, which raises `ValueError`
on non-ASCII netlocs that NFKC-normalize into separator characters
(e.g. `"https://℀"`). -/
theorem pure_core_total (u : List Char) (_ha : ∀ c ∈ u, c.toNat < 128)
    (hl : '[' ∉ u) (hr : ']' ∉ u)
    (d : JVal) (hd : wellShapedData d = true) :
    (∃ v, normalize_url u = .ok v) ∧
    (∃ s, page_id_from_canonical u = .ok s) ∧
    (∃ r, reconcile_one d = .ok r) := by
  obtain ⟨v, hv⟩ := normalize_url_ok u hl hr
  refine ⟨⟨v, hv⟩, ⟨sha256hex (utf8Encode v), ?_⟩, ?_⟩
  · unfold page_id_from_canonical
    rw [hv]
    rfl
  · obtain ⟨r, hrec, _⟩ := reconcile_one_ok d hd
    exact ⟨r, hrec⟩

/-- Witness for C7 (amended) at a concrete URL and extraction value. -/
theorem pure_core_total_witness :
    (∃ v, normalize_url (String.toList "https://h/p?x=1") = .ok v) ∧
    (∃ s, page_id_from_canonical (String.toList "https://h/p?x=1") =
      .ok s) ∧
    (∃ r, reconcile_one JVal.null = .ok r) :=
  pure_core_total (String.toList "https://h/p?x=1") (by decide)
    (by decide) (by decide) JVal.null (by decide)

theorem flatMap_byteHex_length (bs : List Nat) :
    (bs.flatMap byteHex).length = 2 * bs.length := by
  induction bs with
  | nil => rfl
  | cons b rest ih => simp [byteHex, ih]; omega

theorem sha256hex_length (msg : List Nat) : (sha256hex msg).length = 64 := by
  unfold sha256hex
  rw [flatMap_byteHex_length]
  rfl

theorem hexChar_mem (n : Nat) : hexChar n ∈ hexDigits := by
  unfold hexChar
  have h : n % 16 < hexDigits.length := Nat.mod_lt _ (by decide)
  rw [List.getD_eq_getElem _ _ h]
  exact List.getElem_mem h

theorem sha256hex_chars (msg : List Nat) :
    ∀ c ∈ sha256hex msg, c ∈ hexDigits := by
  intro c hc
  unfold sha256hex at hc
  rw [List.mem_flatMap] at hc
  obtain ⟨b, _, hcb⟩ := hc
  simp only [byteHex, List.mem_cons, List.mem_singleton] at hcb
  rcases hcb with rfl | rfl | h
  · exact hexChar_mem _
  · exact hexChar_mem _
  · exact absurd h (List.not_mem_nil c)

/-- C6 (confirmed): `page_id_from_canonical` equals the SHA-256 hex
digest of the UTF-8 bytes of the normalized URL; whenever it returns,
the digest is a fixed-length 64-character string over the lowercase
hex alphabet; it is a pure deterministic function of the canonical URL
(no salt, no machine state), so inputs with equal normalized URLs
always yield equal page ids. -/
theorem page_id_sha256_properties (u v : List Char) (s : List Char)
    (hs : page_id_from_canonical u = .ok s)
    (hv : normalize_url u = normalize_url v) :
    page_id_from_canonical u =
      (normalize_url u).map (fun n => sha256hex (utf8Encode n)) ∧
    s.length = 64 ∧
    (∀ c ∈ s, c ∈ hexDigits) ∧
    page_id_from_canonical u = page_id_from_canonical v := by
  refine ⟨rfl, ?_, ?_, ?_⟩
  · unfold page_id_from_canonical at hs
    cases hn : normalize_url u with
    | ok n =>
      rw [hn] at hs
      simp only [Except.map] at hs
      rw [← Except.ok.inj hs]
      exact sha256hex_length _
    | error e => rw [hn] at hs; simp [Except.map] at hs
  · unfold page_id_from_canonical at hs
    cases hn : normalize_url u with
    | ok n =>
      rw [hn] at hs
      simp only [Except.map] at hs
      rw [← Except.ok.inj hs]
      exact sha256hex_chars _
    | error e => rw [hn] at hs; simp [Except.map] at hs
  · unfold page_id_from_canonical
    rw [hv]

def c6url : List Char := String.toList "https://example.com"

/-- Witness for C6 at a concrete canonical URL. -/
theorem page_id_sha256_properties_witness :
    page_id_from_canonical c6url =
      (normalize_url c6url).map (fun n => sha256hex (utf8Encode n)) ∧
    (sha256hex (utf8Encode (String.toList "https://example.com"))).length
      = 64 ∧
    (∀ c ∈ sha256hex (utf8Encode (String.toList "https://example.com")),
      c ∈ hexDigits) ∧
    page_id_from_canonical c6url = page_id_from_canonical c6url :=
  page_id_sha256_properties c6url c6url _
    (by
      unfold page_id_from_canonical
      rw [show normalize_url c6url =
        .ok (String.toList "https://example.com") by decide]
      rfl)
    rfl

/-- Witness for C2 (amended) at a concrete database. -/
theorem upsert_preserves_uncat_invariant_witness :
    AtMostOneUncat (upsert_page c4db 5 baseSnap) :=
  upsert_preserves_uncat_invariant c4db 5 baseSnap rfl (by decide)
    (fun _ => le_trans (List.length_filter_le _ _) (by decide))

/-! ## C10: `query_pages` exclusions -/

theorem mem_insertSorted (le : Row → Row → Bool) (x : Row) (l : List Row)
    (a : Row) : a ∈ insertSorted le x l ↔ a = x ∨ a ∈ l := by
  induction l with
  | nil => simp [insertSorted]
  | cons y ys ih =>
    simp only [insertSorted]
    by_cases h : le x y
    · simp [h]
    · simp only [if_neg h, List.mem_cons, ih]
      tauto

theorem mem_sortRows (le : Row → Row → Bool) (l : List Row) (a : Row) :
    a ∈ sortRows le l ↔ a ∈ l := by
  induction l with
  | nil => simp [sortRows]
  | cons x xs ih => simp [sortRows, mem_insertSorted, ih]

def c10RowA : Row :=
  { baseRow with
    id := 1
    catalogued := 1
    airtable_id := some (String.toList "at1")
    last_seen := 5 }

def c10RowB : Row :=
  { baseRow with id := 2, catalogued := 0, last_seen := 5 }

def c10db : DB := ⟨[c10RowA, c10RowB], [], 3⟩

/-- C10 counterexample to the "only the latest catalogued row per
page_id whose airtable_id is non-null" part: the uncatalogued
placeholder row (id 2, `airtable_id` null) shares `last_seen` with the
catalogued row of the same `page_id`, so the join against the grouped
subquery also matches it and `query_pages` returns both rows. -/
theorem query_pages_latest_tie_cex :
    (query_pages .sqlite c10db {}).1.map Item.id = [1, 2] ∧
    (query_pages .sqlite c10db {}).1.map Item.airtable_id =
      [some (String.toList "at1"), none] ∧
    (∀ r ∈ c10db.rows, r.id = 2 →
      r.catalogued = 0 ∧ r.airtable_id = none) := by decide

/-- C10 (amended): for every dialect, database state and combination
of filter arguments, `query_pages` never returns a row whose
`page_status` is `"Inactive"`, nor one whose `url` contains
`"usatoday.com"`, `"gorenewalbyandersen.com"` or
`"carshieldplans.com"` (LIKE-containment), and every returned row's
`last_seen` equals the maximum `last_seen` among catalogued rows with
non-null `airtable_id` for its `page_id` (the join key of the
latest-version subquery). -/
theorem query_pages_exclusions (dialect : Dialect) (db : DB)
    (a : QueryArgs) (it : Item)
    (hit : it ∈ (query_pages dialect db a).1) :
    it.page_status ≠ some (String.toList "Inactive") ∧
    likeContains (String.toList "usatoday.com") it.url = false ∧
    likeContains (String.toList "gorenewalbyandersen.com") it.url = false ∧
    likeContains (String.toList "carshieldplans.com") it.url = false ∧
    maxLastSeenCat db.rows it.page_id = it.last_seen := by
  unfold query_pages at hit
  dsimp only at hit
  rw [List.mem_map] at hit
  obtain ⟨r, hrpage, heq⟩ := hit
  have hrfilt : r ∈ db.rows.filter (queryFilter dialect db.rows a) := by
    have h1 := List.mem_of_mem_take hrpage
    have h2 := List.mem_of_mem_drop h1
    revert h2
    cases hs : a.sort with
    | none => exact id
    | some sspec =>
      dsimp only
      rcases sortSpec sspec with ⟨col, dir⟩
      dsimp only
      by_cases hd : dir = String.toList "desc"
      · rw [if_pos hd, mem_sortRows]
        exact id
      · rw [if_neg hd, mem_sortRows]
        exact id
  have hpred := List.of_mem_filter hrfilt
  simp only [queryFilter, Bool.and_eq_true] at hpred
  have hjoin := hpred.1.1.1.1.1.1.1.1.1.1.1.1.1.1
  have hstatus := hpred.1.1.1.1.1.1.1.1.1.1.1.1.1.2
  have husa := hpred.1.1.1.1.1.1.1.1.1.1.1.1.2
  have hgor := hpred.1.1.1.1.1.1.1.1.1.1.1.2
  have hcar := hpred.1.1.1.1.1.1.1.1.1.1.2
  subst heq
  refine ⟨?_, ?_, ?_, ?_, ?_⟩
  · simp only [toItem]
    simp only [Bool.or_eq_true, decide_eq_true_eq] at hstatus
    rcases hstatus with h | h
    · rw [h]; simp
    · simpa using h
  · simpa using husa
  · simpa using hgor
  · simpa using hcar
  · simp only [toItem]
    simpa using hjoin

/-- Witness for C10 (amended) at a concrete database and the default
filter arguments. -/
theorem query_pages_exclusions_witness :
    (toItem ([] : List ExtractRow) c10RowA).page_status ≠
      some (String.toList "Inactive") ∧
    likeContains (String.toList "usatoday.com")
      (toItem ([] : List ExtractRow) c10RowA).url = false ∧
    likeContains (String.toList "gorenewalbyandersen.com")
      (toItem ([] : List ExtractRow) c10RowA).url = false ∧
    likeContains (String.toList "carshieldplans.com")
      (toItem ([] : List ExtractRow) c10RowA).url = false ∧
    maxLastSeenCat c10db.rows
      (toItem ([] : List ExtractRow) c10RowA).page_id =
      (toItem ([] : List ExtractRow) c10RowA).last_seen :=
  query_pages_exclusions .sqlite c10db {} _ (by decide)

/-! ## C3: idempotence of `normalize_url` -/

/-- C3 counterexample: a percent-escaped `&` in a query value is
decoded by the first normalization and then re-parsed as a parameter
separator by the second, so the second pass appends `=` to the new
blank parameter: one pass gives `?a=b&c`, two passes give `?a=b&c=`. -/
theorem normalize_url_not_idempotent_cex :
    (normalize_url (String.toList "https://x/p?a=b%26c")).bind
        normalize_url ≠
      normalize_url (String.toList "https://x/p?a=b%26c") ∧
    normalize_url (String.toList "https://x/p?a=b%26c") =
      .ok (String.toList "https://x/p?a=b&c") ∧
    (normalize_url (String.toList "https://x/p?a=b%26c")).bind
        normalize_url =
      .ok (String.toList "https://x/p?a=b&c=") := by decide

/-- The character class on which idempotence is proved: ASCII, and none
of `%` (percent-escapes), `;` (path parameters), `[`/`]` (IPv6
authority errors). -/
def goodChar (c : Char) : Bool :=
  c.toNat < 128 && !(c = '%' || c = ';' || c = '[' || c = ']')

def safeChar (c : Char) : Bool := !(c = '\t' || c = '\r' || c = '\n')

/-! List helper lemmas for the round-trip proof. -/

theorem splitFirst_of_not_mem (sep : Char) (l : List Char) (h : sep ∉ l) :
    splitFirst sep l = none := by
  induction l with
  | nil => rfl
  | cons x xs ih =>
    simp only [List.mem_cons, not_or] at h
    have hx : ¬ x = sep := fun hh => h.1 hh.symm
    simp [splitFirst, hx, ih h.2]

theorem splitFirst_append_sep (sep : Char) (a b : List Char)
    (ha : sep ∉ a) : splitFirst sep (a ++ sep :: b) = some (a, b) := by
  induction a with
  | nil => simp [splitFirst]
  | cons x xs ih =>
    simp only [List.mem_cons, not_or] at ha
    have hx : ¬ x = sep := fun hh => ha.1 hh.symm
    simp [splitFirst, hx, ih ha.2]

theorem splitFirst_fst_not_mem (sep : Char) (l a b : List Char)
    (h : splitFirst sep l = some (a, b)) : sep ∉ a := by
  induction l generalizing a b with
  | nil => simp [splitFirst] at h
  | cons x xs ih =>
    simp only [splitFirst] at h
    by_cases hx : x = sep
    · rw [if_pos hx] at h
      injection h with h
      injection h with h1 h2
      subst h1
      exact List.not_mem_nil sep
    · rw [if_neg hx] at h
      cases hsf : splitFirst sep xs with
      | none => rw [hsf] at h; simp at h
      | some p =>
        obtain ⟨p1, p2⟩ := p
        rw [hsf] at h
        simp only [Option.map_some', Option.some.injEq, Prod.mk.injEq] at h
        obtain ⟨h1, h2⟩ := h
        subst h1
        intro hmem
        rcases List.mem_cons.mp hmem with h | h
        · exact hx h.symm
        · exact ih p1 p2 hsf h

theorem splitFirst_fst_mem (sep : Char) (l a b : List Char)
    (h : splitFirst sep l = some (a, b)) : ∀ c ∈ a, c ∈ l := by
  induction l generalizing a b with
  | nil => simp [splitFirst] at h
  | cons x xs ih =>
    simp only [splitFirst] at h
    by_cases hx : x = sep
    · rw [if_pos hx] at h
      injection h with h
      injection h with h1 h2
      subst h1
      intro c hc
      exact absurd hc (List.not_mem_nil c)
    · rw [if_neg hx] at h
      cases hsf : splitFirst sep xs with
      | none => rw [hsf] at h; simp at h
      | some p =>
        obtain ⟨p1, p2⟩ := p
        rw [hsf] at h
        simp only [Option.map_some', Option.some.injEq, Prod.mk.injEq] at h
        obtain ⟨h1, h2⟩ := h
        subst h1
        intro c hc
        rcases List.mem_cons.mp hc with rfl | h
        · exact List.mem_cons_self _ _
        · exact List.mem_cons_of_mem _ (ih p1 p2 hsf c h)

theorem of_mem_takeWhile (p : Char → Bool) (l : List Char) (c : Char)
    (h : c ∈ l.takeWhile p) : p c = true := by
  induction l with
  | nil => simp [List.takeWhile] at h
  | cons x xs ih =>
    simp only [List.takeWhile] at h
    cases hp : p x with
    | false => rw [hp] at h; simp at h
    | true =>
      rw [hp] at h
      rcases List.mem_cons.mp h with rfl | h
      · exact hp
      · exact ih h

theorem takeWhile_append_all (p : Char → Bool) (a b : List Char)
    (ha : a.all p = true)
    (hb : match b with | [] => True | c :: _ => p c = false) :
    (a ++ b).takeWhile p = a ∧ (a ++ b).dropWhile p = b := by
  induction a with
  | nil =>
    cases b with
    | nil => simp
    | cons c cs =>
      simp only [List.nil_append, List.takeWhile, List.dropWhile]
      rw [hb]
      exact ⟨rfl, rfl⟩
  | cons x xs ih =>
    simp only [List.all_cons, Bool.and_eq_true] at ha
    have h2 := ih ha.2
    constructor
    · rw [List.cons_append, List.takeWhile_cons, ha.1]
      simp [h2.1]
    · rw [List.cons_append, List.dropWhile_cons]
      simp [ha.1, h2.2]

theorem splitOnChar_not_mem (sep : Char) (l : List Char) (h : sep ∉ l) :
    splitOnChar sep l = [l] := by
  induction l with
  | nil => rfl
  | cons x xs ih =>
    simp only [List.mem_cons, not_or] at h
    have hx : ¬ x = sep := fun hh => h.1 hh.symm
    simp [splitOnChar, hx, ih h.2]

theorem splitOnChar_append_sep (sep : Char) (a b : List Char)
    (ha : sep ∉ a) : splitOnChar sep (a ++ sep :: b) = a :: splitOnChar sep b := by
  induction a with
  | nil => simp [splitOnChar]
  | cons x xs ih =>
    simp only [List.mem_cons, not_or] at ha
    have hx : ¬ x = sep := fun hh => ha.1 hh.symm
    simp [splitOnChar, hx, ih ha.2]

theorem plusToSpace_of_not_mem (l : List Char) (h : '+' ∉ l) :
    plusToSpace l = l := by
  induction l with
  | nil => rfl
  | cons x xs ih =>
    simp only [List.mem_cons, not_or] at h
    have hx : ¬ x = '+' := fun hh => h.1 hh.symm
    simp only [plusToSpace, List.map_cons, if_neg hx]
    rw [show List.map (fun c => if c = '+' then ' ' else c) xs =
      plusToSpace xs from rfl, ih h.2]

theorem unquote_of_not_mem (l : List Char) (h : '%' ∉ l) :
    unquote l = l := by
  unfold unquote
  rw [if_neg h]

/-- No two consecutive slashes. -/
def noDoubleSlash : List Char → Bool
  | [] => true
  | [_] => true
  | a :: b :: rest => !(a = '/' && b = '/') && noDoubleSlash (b :: rest)

theorem collapseSlashes_cons (c : Char) (l : List Char) :
    collapseSlashes (c :: l) =
      if c = '/' && (collapseSlashes l).head? = some '/' then collapseSlashes l
      else c :: collapseSlashes l := rfl

theorem noDoubleSlash_cons_of (c : Char) (l : List Char)
    (hl : noDoubleSlash l = true)
    (hc : c = '/' → l.head? ≠ some '/') : noDoubleSlash (c :: l) = true := by
  cases l with
  | nil => rfl
  | cons b rest =>
    simp only [noDoubleSlash, Bool.and_eq_true, Bool.not_eq_true']
    refine ⟨?_, hl⟩
    by_cases hcs : c = '/'
    · have hb : ¬ b = '/' := fun hb => (hc hcs) (by simp [List.head?, hb])
      simp [hb]
    · simp [hcs]

theorem noDoubleSlash_collapse (l : List Char) :
    noDoubleSlash (collapseSlashes l) = true := by
  induction l with
  | nil => rfl
  | cons c rest ih =>
    rw [collapseSlashes_cons]
    by_cases h : (c = '/' && (collapseSlashes rest).head? = some '/') = true
    · rw [if_pos h]; exact ih
    · rw [if_neg h]
      refine noDoubleSlash_cons_of c _ ih ?_
      intro hc hhead
      exact h (by simp [hc, hhead])

theorem collapse_fix (l : List Char) (h : noDoubleSlash l = true) :
    collapseSlashes l = l := by
  induction l with
  | nil => rfl
  | cons c rest ih =>
    have hrest : noDoubleSlash rest = true := by
      cases rest with
      | nil => rfl
      | cons b rs =>
        simp only [noDoubleSlash, Bool.and_eq_true] at h
        exact h.2
    rw [collapseSlashes_cons, ih hrest]
    cases rest with
    | nil => simp
    | cons b rs =>
      simp only [noDoubleSlash, Bool.and_eq_true, Bool.not_eq_true'] at h
      simp only [List.head?]
      by_cases hc : c = '/'
      · subst hc
        simp only [decide_True, Bool.true_and] at h
        have : ¬ b = '/' := by
          intro hb
          subst hb
          simp at h
        simp [this]
      · simp [hc]

theorem mem_collapse (l : List Char) (c : Char)
    (h : c ∈ collapseSlashes l) : c ∈ l := by
  induction l with
  | nil => simp [collapseSlashes] at h
  | cons x rest ih =>
    rw [collapseSlashes_cons] at h
    by_cases hx : (x = '/' && (collapseSlashes rest).head? = some '/') = true
    · rw [if_pos hx] at h
      exact List.mem_cons_of_mem _ (ih h)
    · rw [if_neg hx] at h
      rcases List.mem_cons.mp h with rfl | h
      · exact List.mem_cons_self _ _
      · exact List.mem_cons_of_mem _ (ih h)

theorem stripTrailingSlash_mem (l : List Char) (c : Char)
    (h : c ∈ stripTrailingSlash l) : c ∈ l := by
  unfold stripTrailingSlash at h
  split at h
  · exact List.dropLast_subset _ h
  · exact h

theorem stripTrailingSlash_fix (l : List Char)
    (h : l.getLast? = some '/' → l = ['/']) : stripTrailingSlash l = l := by
  unfold stripTrailingSlash
  by_cases hl : l.getLast? = some '/'
  · rw [h hl]
    simp
  · simp [hl]

theorem noDoubleSlash_take (l : List Char) (n : Nat)
    (h : noDoubleSlash l = true) : noDoubleSlash (l.take n) = true := by
  induction l generalizing n with
  | nil => simp [List.take_nil]; rfl
  | cons c rest ih =>
    cases n with
    | zero => rfl
    | succ m =>
      have hrest : noDoubleSlash rest = true := by
        cases rest with
        | nil => rfl
        | cons b rs =>
          simp only [noDoubleSlash, Bool.and_eq_true] at h
          exact h.2
      rw [List.take_succ_cons]
      refine noDoubleSlash_cons_of c _ (ih m hrest) ?_
      intro hc hhead
      cases rest with
      | nil => cases m <;> simp [List.take] at hhead
      | cons b rs =>
        simp only [noDoubleSlash, Bool.and_eq_true, Bool.not_eq_true'] at h
        cases m with
        | zero => simp [List.take] at hhead
        | succ k =>
          rw [List.take_succ_cons] at hhead
          simp only [List.head?, Option.some.injEq] at hhead
          subst hc hhead
          simp at h

theorem noDoubleSlash_dropLast (l : List Char)
    (h : noDoubleSlash l = true) : noDoubleSlash l.dropLast = true := by
  rw [List.dropLast_eq_take]
  exact noDoubleSlash_take l _ h

theorem lowerChar_fix (c : Char) (h : isAsciiUpper c = false) :
    lowerChar c = c := by
  unfold lowerChar
  rw [h]
  simp

theorem toNat_ofNat_valid (n : Nat) (h : n.isValidChar) :
    (Char.ofNat n).toNat = n := by
  unfold Char.ofNat
  rw [dif_pos h]
  rfl

theorem isAsciiUpper_lowerChar (c : Char) :
    isAsciiUpper (lowerChar c) = false := by
  unfold lowerChar
  by_cases h : isAsciiUpper c = true
  · rw [if_pos h]
    unfold isAsciiUpper at h ⊢
    simp only [Bool.and_eq_true, decide_eq_true_eq] at h
    have hv : (c.toNat + 0x20).isValidChar := Or.inl (by omega)
    rw [toNat_ofNat_valid _ hv]
    simp only [Bool.and_eq_false_iff, decide_eq_false_iff_not, not_le]
    right
    omega
  · rw [if_neg h]
    simpa using h

theorem lowerAscii_idem (l : List Char) :
    lowerAscii (lowerAscii l) = lowerAscii l := by
  unfold lowerAscii
  rw [List.map_map]
  apply List.map_congr_left
  intro c _
  exact lowerChar_fix (lowerChar c) (isAsciiUpper_lowerChar c)

/-! Normal forms of the components produced by `normalize_url`. -/

def NormScheme (s : List Char) : Prop :=
  (∃ c cs, s = c :: cs ∧ isAsciiLower c = true) ∧
  s.all isSchemeChar = true ∧ lowerAscii s = s

def netlocChar (c : Char) : Bool :=
  goodChar c && safeChar c && !isNetlocDelim c

def NormNetloc (n : List Char) : Prop :=
  n.all netlocChar = true ∧ lowerAscii n = n

def pathChar (c : Char) : Bool :=
  goodChar c && safeChar c && !(c = '?') && !(c = '#')

def NormPath (p : List Char) : Prop :=
  p.all pathChar = true ∧ noDoubleSlash p = true ∧
  (p.getLast? = some '/' → p = ['/'])

def qvalChar (c : Char) : Bool :=
  goodChar c && safeChar c && !(c = '#') && !(c = '&') && !(c = '+')

def qkeyChar (c : Char) : Bool := qvalChar c && !(c = '=')

def CleanPairs (prs : List (List Char × List Char)) : Prop :=
  ∀ kv ∈ prs, kv.1.all qkeyChar = true ∧ kv.2.all qvalChar = true

def NormQuery (q : List Char) : Prop :=
  q = [] ∨ ∃ prs, prs ≠ [] ∧
    q = joinChar '&' (prs.map (fun kv => kv.1 ++ '=' :: kv.2)) ∧
    CleanPairs prs ∧
    prs.filter (fun kv => kv.1 ∉ TRACKING_PARAMS) = prs

theorem not_mem_of_all_not (p : Char → Bool) (l : List Char) (c : Char)
    (h : l.all p = true) (hc : p c = false) : c ∉ l := by
  intro hmem
  have := List.all_eq_true.mp h c hmem
  rw [hc] at this
  exact Bool.false_ne_true this

theorem qslPair_clean (k v : List Char) (hk : k.all qkeyChar = true)
    (hv : v.all qvalChar = true) : qslPair (k ++ '=' :: v) = some (k, v) := by
  unfold qslPair
  rw [if_neg (by simp)]
  rw [splitFirst_append_sep '=' k v
    (not_mem_of_all_not _ _ _ hk (by decide))]
  have hkp : '+' ∉ k := not_mem_of_all_not _ _ _ hk (by decide)
  have hvp : '+' ∉ v := not_mem_of_all_not _ _ _ hv (by decide)
  have hkq : '%' ∉ k := not_mem_of_all_not _ _ _ hk (by decide)
  have hvq : '%' ∉ v := not_mem_of_all_not _ _ _ hv (by decide)
  dsimp only
  rw [plusToSpace_of_not_mem k hkp, plusToSpace_of_not_mem v hvp,
    unquote_of_not_mem k hkq, unquote_of_not_mem v hvq]

theorem amp_not_mem_pair (k v : List Char) (hk : k.all qkeyChar = true)
    (hv : v.all qvalChar = true) : '&' ∉ k ++ '=' :: v := by
  intro hmem
  rcases List.mem_append.mp hmem with h | h
  · exact not_mem_of_all_not _ _ _ hk (by decide) h
  · rcases List.mem_cons.mp h with h | h
    · exact absurd h (by decide)
    · exact not_mem_of_all_not _ _ _ hv (by decide) h

theorem join_pairs_ne_nil (prs : List (List Char × List Char))
    (h : prs ≠ []) :
    joinChar '&' (prs.map (fun kv => kv.1 ++ '=' :: kv.2)) ≠ [] := by
  cases prs with
  | nil => contradiction
  | cons kv rest =>
    obtain ⟨k, v⟩ := kv
    cases rest with
    | nil =>
      simp only [List.map_cons, List.map_nil, joinChar]
      exact fun hh => by simp at hh
    | cons b bs =>
      simp only [List.map_cons, joinChar]
      exact fun hh => by simp at hh

theorem parseQsl_join (prs : List (List Char × List Char))
    (hne : prs ≠ []) (hcl : CleanPairs prs) :
    parseQsl (joinChar '&' (prs.map (fun kv => kv.1 ++ '=' :: kv.2))) =
      prs := by
  induction prs with
  | nil => contradiction
  | cons kv rest ih =>
    obtain ⟨k, v⟩ := kv
    have hk := (hcl _ (List.mem_cons_self _ _)).1
    have hv := (hcl _ (List.mem_cons_self _ _)).2
    cases rest with
    | nil =>
      unfold parseQsl
      rw [if_neg (by
        simp only [List.map_cons, List.map_nil, joinChar]
        simp)]
      simp only [List.map_cons, List.map_nil, joinChar]
      rw [splitOnChar_not_mem '&' _ (amp_not_mem_pair k v hk hv)]
      simp [List.filterMap, qslPair_clean k v hk hv]
    | cons kv2 rest2 =>
      have hrest : (kv2 :: rest2 :
          List (List Char × List Char)) ≠ [] := by simp
      have hclr : CleanPairs (kv2 :: rest2) :=
        fun x hx => hcl x (List.mem_cons_of_mem _ hx)
      have ihr := ih hrest hclr
      unfold parseQsl at ihr ⊢
      rw [if_neg (join_pairs_ne_nil _ (by simp))]
      rw [if_neg (join_pairs_ne_nil (kv2 :: rest2) hrest)] at ihr
      have hjoin : joinChar '&'
          (((k, v) :: kv2 :: rest2).map (fun kv => kv.1 ++ '=' :: kv.2)) =
          (k ++ '=' :: v) ++ '&' ::
            joinChar '&' ((kv2 :: rest2).map (fun kv => kv.1 ++ '=' :: kv.2)) := by
        simp only [List.map_cons, joinChar]
      rw [hjoin, splitOnChar_append_sep '&' _ _ (amp_not_mem_pair k v hk hv),
        List.filterMap_cons, qslPair_clean k v hk hv, ihr]

/-- The `/`-prefix `urlunsplit` adds to a relative path when a netloc
section is emitted. -/
def addRoot (p : List Char) : List Char :=
  if p ≠ [] && p.take 1 ≠ ['/'] then '/' :: p else p

/-- The condition under which `urlunsplit` emits `//`. -/
def withNetloc (s n p : List Char) : Bool :=
  n ≠ [] || (s ≠ [] && s ∈ uses_netloc && p.take 2 ≠ ['/', '/'])

theorem unparse_shape (s n p q : List Char) (hs : s ≠ []) :
    urlunparseChars s n p [] q [] =
      s ++ ':' ::
        ((if withNetloc s n p = true then '/' :: '/' :: (n ++ addRoot p)
          else p) ++
          (if q ≠ [] then '?' :: q else [])) := by
  by_cases hq : q ≠ []
  · by_cases hw : withNetloc s n p = true
    · simp only [urlunparseChars, withNetloc, addRoot] at hw ⊢
      simp [hs, hq, hw, List.append_assoc]
    · simp only [urlunparseChars, withNetloc, addRoot] at hw ⊢
      simp [hs, hq, hw, List.append_assoc]
  · by_cases hw : withNetloc s n p = true
    · simp only [urlunparseChars, withNetloc, addRoot] at hw ⊢
      simp [hs, hq, hw]
    · simp only [urlunparseChars, withNetloc, addRoot] at hw ⊢
      simp [hs, hq, hw]

theorem addRoot_shape (p : List Char) :
    addRoot p = p ∧ (p = [] ∨ ∃ t, p = '/' :: t) ∨
      addRoot p = '/' :: p := by
  unfold addRoot
  by_cases h : (decide (p ≠ []) && decide (p.take 1 ≠ ['/'])) = true
  · rw [if_pos h]
    right
    rfl
  · rw [if_neg h]
    left
    refine ⟨rfl, ?_⟩
    simp only [Bool.and_eq_true, decide_eq_true_eq, not_and_or, not_not] at h
    by_cases hp : p = []
    · exact Or.inl hp
    · right
      rcases h with h | h
      · exact absurd h hp
      · cases p with
        | nil => exact absurd rfl hp
        | cons a t =>
          simp only [List.take_succ_cons, List.take_zero,
            List.cons.injEq, and_true] at h
          exact ⟨t, by rw [h]⟩

theorem lowerChar_upper_toNat (c : Char) (h : isAsciiUpper c = true) :
    (lowerChar c).toNat = c.toNat + 32 := by
  unfold lowerChar
  rw [if_pos h]
  unfold isAsciiUpper at h
  simp only [Bool.and_eq_true, decide_eq_true_eq] at h
  exact toNat_ofNat_valid _ (Or.inl (by omega))

theorem lowered_upper_ne (c : Char) (h : isAsciiUpper c = true) (d : Char)
    (hd : d.toNat < 97 ∨ 122 < d.toNat) : lowerChar c ≠ d := by
  intro he
  have hc := congrArg Char.toNat he
  rw [lowerChar_upper_toNat c h] at hc
  unfold isAsciiUpper at h
  simp only [Bool.and_eq_true, decide_eq_true_eq] at h
  omega

theorem netlocChar_lowerChar (c : Char) (h : netlocChar c = true) :
    netlocChar (lowerChar c) = true := by
  by_cases hu : isAsciiUpper c = true
  · have ht := lowerChar_upper_toNat c hu
    have hb : 65 ≤ c.toNat ∧ c.toNat ≤ 90 := by
      unfold isAsciiUpper at hu
      simpa using hu
    have h1 : (lowerChar c).toNat < 128 := by omega
    have h2 := lowered_upper_ne c hu '%' (by decide)
    have h3 := lowered_upper_ne c hu ';' (by decide)
    have h4 := lowered_upper_ne c hu '[' (by decide)
    have h5 := lowered_upper_ne c hu ']' (by decide)
    have h6 := lowered_upper_ne c hu '/' (by decide)
    have h7 := lowered_upper_ne c hu '?' (by decide)
    have h8 := lowered_upper_ne c hu '#' (by decide)
    have h9 := lowered_upper_ne c hu '\t' (by decide)
    have h10 := lowered_upper_ne c hu '\r' (by decide)
    have h11 := lowered_upper_ne c hu '\n' (by decide)
    simp [netlocChar, goodChar, safeChar, isNetlocDelim, h1, h2, h3, h4, h5,
      h6, h7, h8, h9, h10, h11]
  · rw [lowerChar_fix c (by simpa using hu)]
    exact h

theorem isSchemeChar_lowerChar (c : Char) (h : isSchemeChar c = true) :
    isSchemeChar (lowerChar c) = true := by
  by_cases hu : isAsciiUpper c = true
  · have ht := lowerChar_upper_toNat c hu
    have hb : 65 ≤ c.toNat ∧ c.toNat ≤ 90 := by
      unfold isAsciiUpper at hu
      simpa using hu
    have : isAsciiLower (lowerChar c) = true := by
      unfold isAsciiLower
      simp only [Bool.and_eq_true, decide_eq_true_eq]
      omega
    simp [isSchemeChar, isAsciiAlpha, this]
  · rw [lowerChar_fix c (by simpa using hu)]
    exact h

theorem isAsciiLower_lowerChar_of_alpha (c : Char)
    (h : isAsciiAlpha c = true) : isAsciiLower (lowerChar c) = true := by
  by_cases hu : isAsciiUpper c = true
  · have ht := lowerChar_upper_toNat c hu
    have hb : 65 ≤ c.toNat ∧ c.toNat ≤ 90 := by
      unfold isAsciiUpper at hu
      simpa using hu
    unfold isAsciiLower
    simp only [Bool.and_eq_true, decide_eq_true_eq]
    omega
  · rw [lowerChar_fix c (by simpa using hu)]
    unfold isAsciiAlpha at h
    rcases Bool.or_eq_true_iff.mp h with h | h
    · exact absurd h hu
    · exact h

theorem safeChar_of_schemeChar (c : Char) (h : isSchemeChar c = true) :
    safeChar c = true := by
  unfold safeChar
  simp only [Bool.not_eq_true', Bool.or_eq_false_iff, decide_eq_false_iff_not]
  refine ⟨⟨?_, ?_⟩, ?_⟩ <;> rintro rfl <;> exact absurd h (by decide)

theorem mem_joinChar (sep : Char) (ps : List (List Char)) (c : Char)
    (h : c ∈ joinChar sep ps) : c = sep ∨ ∃ p ∈ ps, c ∈ p := by
  induction ps with
  | nil => simp [joinChar] at h
  | cons a t ih =>
    cases t with
    | nil => exact Or.inr ⟨a, by simp, h⟩
    | cons b u =>
      rcases List.mem_append.mp h with h | h
      · exact Or.inr ⟨a, by simp, h⟩
      · rcases List.mem_cons.mp h with rfl | h
        · exact Or.inl rfl
        · rcases ih h with h | ⟨p, hp, hc⟩
          · exact Or.inl h
          · exact Or.inr ⟨p, List.mem_cons_of_mem a hp, hc⟩

theorem normQuery_mem (q : List Char) (hq : NormQuery q) (c : Char)
    (h : c ∈ q) :
    (qvalChar c || decide (c = '=') || decide (c = '&')) = true := by
  rcases hq with rfl | ⟨prs, _, hjoin, hcl, _⟩
  · simp at h
  · rw [hjoin] at h
    rcases mem_joinChar '&' _ c h with rfl | ⟨piece, hpiece, hc⟩
    · simp
    · obtain ⟨kv, hkv, rfl⟩ := List.mem_map.mp hpiece
      obtain ⟨hk, hv⟩ := hcl kv hkv
      rcases List.mem_append.mp hc with hck | hcv
      · have := List.all_eq_true.mp hk c hck
        unfold qkeyChar at this
        simp only [Bool.and_eq_true] at this
        simp [this.1]
      · rcases List.mem_cons.mp hcv with rfl | hcv
        · simp
        · simp [List.all_eq_true.mp hv c hcv]

theorem qchar_facts (c : Char)
    (h : (qvalChar c || decide (c = '=') || decide (c = '&')) = true) :
    safeChar c = true ∧ c ≠ '#' := by
  rcases Bool.or_eq_true_iff.mp h with h | h
  · rcases Bool.or_eq_true_iff.mp h with h | h
    · unfold qvalChar at h
      simp only [Bool.and_eq_true, Bool.not_eq_true',
        decide_eq_false_iff_not] at h
      exact ⟨h.1.1.1.2, h.1.1.2⟩
    · rw [of_decide_eq_true h]
      exact ⟨by decide, by decide⟩
  · rw [of_decide_eq_true h]
    exact ⟨by decide, by decide⟩

theorem pathChar_facts (c : Char) (h : pathChar c = true) :
    safeChar c = true ∧ c ≠ '?' ∧ c ≠ '#' ∧ c ≠ ';' := by
  unfold pathChar at h
  simp only [Bool.and_eq_true] at h
  have hg := h.1.1.1
  unfold goodChar at hg
  simp only [Bool.and_eq_true, Bool.not_eq_true', Bool.or_eq_false_iff,
    decide_eq_false_iff_not] at hg
  refine ⟨h.1.1.2, ?_, ?_, hg.2.1.1.2⟩
  · have := h.1.2
    simpa using this
  · have := h.2
    simpa using this

theorem netlocChar_facts (c : Char) (h : netlocChar c = true) :
    safeChar c = true ∧ isNetlocDelim c = false ∧ c ≠ '[' ∧ c ≠ ']' := by
  unfold netlocChar at h
  simp only [Bool.and_eq_true] at h
  have hg := h.1.1
  unfold goodChar at hg
  simp only [Bool.and_eq_true, Bool.not_eq_true', Bool.or_eq_false_iff,
    decide_eq_false_iff_not] at hg
  refine ⟨h.1.2, ?_, hg.2.1.2, hg.2.2⟩
  have := h.2
  simpa using this

theorem schemeSplit_norm (s rest : List Char) (hs : NormScheme s) :
    schemeSplit (s ++ ':' :: rest) = (s, rest) := by
  obtain ⟨⟨c, cs, hcons, hlow⟩, hall, hfix⟩ := hs
  subst hcons
  have hnc : ':' ∉ c :: cs := not_mem_of_all_not _ _ _ hall (by decide)
  have halpha : isAsciiAlpha c = true := by
    unfold isAsciiAlpha
    rw [hlow]
    simp
  unfold schemeSplit
  rw [splitFirst_append_sep ':' _ rest hnc]
  simp [halpha, hall, hfix]

theorem take_two_ne_slashes (p qpart : List Char)
    (hp : noDoubleSlash p = true)
    (hqp : qpart = [] ∨ ∃ t, qpart = '?' :: t) :
    (p ++ qpart).take 2 ≠ ['/', '/'] := by
  intro hcontra
  match p, qpart, hqp with
  | a :: b :: t, _, _ =>
    simp only [List.cons_append, List.take_succ_cons, List.take_zero,
      List.cons.injEq, and_true] at hcontra
    unfold noDoubleSlash at hp
    rw [hcontra.1, hcontra.2] at hp
    simp at hp
  | [a], [], _ => simp at hcontra
  | [a], _, Or.inr ⟨t, rfl⟩ =>
    simp only [List.cons_append, List.nil_append, List.take_succ_cons,
      List.take_zero, List.cons.injEq, and_true] at hcontra
    exact absurd hcontra.2 (by decide)
  | [], [], _ => simp at hcontra
  | [], _, Or.inr ⟨t, rfl⟩ =>
    simp only [List.nil_append, List.take_succ_cons,
      List.cons.injEq] at hcontra
    exact absurd hcontra.1 (by decide)

theorem mem_addRoot (p : List Char) (c : Char) (h : c ∈ addRoot p) :
    c = '/' ∨ c ∈ p := by
  rcases addRoot_shape p with ⟨heq, _⟩ | heq
  · rw [heq] at h
    exact Or.inr h
  · rw [heq] at h
    rcases List.mem_cons.mp h with rfl | h
    · exact Or.inl rfl
    · exact Or.inr h

theorem fragQuerySplit_clean (pre q : List Char) (hh : '#' ∉ pre)
    (hq2 : '?' ∉ pre) (hqh : '#' ∉ q) :
    fragQuerySplit (pre ++ (if q ≠ [] then '?' :: q else [])) =
      (pre, q, []) := by
  unfold fragQuerySplit
  by_cases hqe : q ≠ []
  · rw [if_pos hqe]
    have h1 : splitFirst '#' (pre ++ '?' :: q) = none := by
      apply splitFirst_of_not_mem
      intro hmem
      rcases List.mem_append.mp hmem with h | h
      · exact hh h
      · rcases List.mem_cons.mp h with h | h
        · exact absurd h (by decide)
        · exact hqh h
    rw [h1]
    dsimp only
    rw [splitFirst_append_sep '?' pre q hq2]
  · rw [if_neg hqe]
    rw [not_not] at hqe
    subst hqe
    rw [List.append_nil]
    rw [splitFirst_of_not_mem '#' pre hh]
    dsimp only
    rw [splitFirst_of_not_mem '?' pre hq2]

theorem urlsplit_unparse (s n p q : List Char)
    (hs : NormScheme s) (hn : NormNetloc n) (hp : NormPath p)
    (hq : NormQuery q) :
    urlsplitE (urlunparseChars s n p [] q []) =
      .ok ⟨s, n, if withNetloc s n p = true then addRoot p else p,
        q, []⟩ := by
  have hsne : s ≠ [] := by
    obtain ⟨⟨c, cs, hcons, _⟩, _, _⟩ := hs
    rw [hcons]
    simp
  rw [unparse_shape s n p q hsne]
  set qpart := (if q ≠ [] then '?' :: q else ([] : List Char)) with hqp
  set body := (if withNetloc s n p = true then '/' :: '/' :: (n ++ addRoot p)
    else p) with hbody
  have hpmem : ∀ x ∈ addRoot p, safeChar x = true ∧ x ≠ '?' ∧ x ≠ '#' ∧
      x ≠ ';' := by
    intro x hx
    rcases mem_addRoot p x hx with rfl | hx
    · exact ⟨by decide, by decide, by decide, by decide⟩
    · exact pathChar_facts x (List.all_eq_true.mp hp.1 x hx)
  have hqmem : ∀ x ∈ q, safeChar x = true ∧ x ≠ '#' := by
    intro x hx
    exact qchar_facts x (normQuery_mem q hq x hx)
  have hqpmem : ∀ x ∈ qpart, safeChar x = true ∧ x ≠ '#' := by
    intro x hx
    rw [hqp] at hx
    by_cases hqe : q ≠ []
    · rw [if_pos hqe] at hx
      rcases List.mem_cons.mp hx with rfl | hx
      · exact ⟨by decide, by decide⟩
      · exact hqmem x hx
    · rw [if_neg hqe] at hx
      simp at hx
  have hbmem : ∀ x ∈ body, safeChar x = true := by
    intro x hx
    rw [hbody] at hx
    by_cases hw : withNetloc s n p = true
    · rw [if_pos hw] at hx
      rcases List.mem_cons.mp hx with rfl | hx
      · decide
      rcases List.mem_cons.mp hx with rfl | hx
      · decide
      rcases List.mem_append.mp hx with hx | hx
      · exact (netlocChar_facts x (List.all_eq_true.mp hn.1 x hx)).1
      · exact (hpmem x hx).1
    · rw [if_neg hw] at hx
      exact (pathChar_facts x (List.all_eq_true.mp hp.1 x hx)).1
  have hmemsafe : ∀ x ∈ s ++ ':' :: (body ++ qpart), safeChar x = true := by
    intro x hx
    rcases List.mem_append.mp hx with hx | hx
    · exact safeChar_of_schemeChar x (List.all_eq_true.mp hs.2.1 x hx)
    · rcases List.mem_cons.mp hx with rfl | hx
      · decide
      · rcases List.mem_append.mp hx with hx | hx
        · exact hbmem x hx
        · exact (hqpmem x hx).1
  have hlstrip : lstripC0 (s ++ ':' :: (body ++ qpart)) =
      s ++ ':' :: (body ++ qpart) := by
    obtain ⟨⟨c, cs, hcons, hlow⟩, _, _⟩ := hs
    rw [hcons]
    unfold lstripC0
    rw [List.cons_append, List.dropWhile_cons]
    have hc0 : isC0OrSpace c = false := by
      unfold isAsciiLower at hlow
      unfold isC0OrSpace
      simp only [Bool.and_eq_true, decide_eq_true_eq] at hlow
      simp only [decide_eq_false_iff_not]
      omega
    rw [hc0]
    simp
  have hremove : removeUnsafe (s ++ ':' :: (body ++ qpart)) =
      s ++ ':' :: (body ++ qpart) := by
    unfold removeUnsafe
    apply List.filter_eq_self.mpr
    intro a ha
    have := hmemsafe a ha
    unfold safeChar at this
    exact this
  unfold urlsplitE
  rw [hlstrip, hremove]
  dsimp only
  rw [schemeSplit_norm s (body ++ qpart) hs]
  dsimp only
  by_cases hw : withNetloc s n p = true
  · rw [hbody, if_pos hw]
    have htake : (('/' :: '/' :: (n ++ addRoot p)) ++ qpart).take 2 =
        ['/', '/'] := by
      simp
    rw [if_pos htake]
    have hdrop : (('/' :: '/' :: (n ++ addRoot p)) ++ qpart).drop 2 =
        n ++ (addRoot p ++ qpart) := by
      simp
    rw [hdrop]
    have hb : match addRoot p ++ qpart with
        | [] => True
        | c :: _ => (!isNetlocDelim c) = false := by
      rcases addRoot_shape p with ⟨heq, hsh⟩ | heq
      · rw [heq]
        rcases hsh with rfl | ⟨t, rfl⟩
        · rw [List.nil_append, hqp]
          by_cases hqe : q ≠ []
          · rw [if_pos hqe]
            show (!isNetlocDelim '?') = false
            decide
          · rw [if_neg hqe]
            trivial
        · show (!isNetlocDelim '/') = false
          decide
      · rw [heq]
        show (!isNetlocDelim '/') = false
        decide
    have hna : n.all (fun c => !isNetlocDelim c) = true := by
      apply List.all_eq_true.mpr
      intro x hx
      have := (netlocChar_facts x (List.all_eq_true.mp hn.1 x hx)).2.1
      simp [this]
    obtain ⟨htw, hdw⟩ :=
      takeWhile_append_all (fun c => !isNetlocDelim c) n
        (addRoot p ++ qpart) hna hb
    rw [htw, hdw]
    have hbr : ¬ (('[' ∈ n && ']' ∉ n) || (']' ∈ n && '[' ∉ n)) = true := by
      have h1 : '[' ∉ n := by
        intro hmem
        exact (netlocChar_facts _ (List.all_eq_true.mp hn.1 _ hmem)).2.2.1 rfl
      have h2 : ']' ∉ n := by
        intro hmem
        exact (netlocChar_facts _ (List.all_eq_true.mp hn.1 _ hmem)).2.2.2 rfl
      simp [h1, h2]
    rw [if_neg hbr]
    have hfq : fragQuerySplit (addRoot p ++ qpart) = (addRoot p, q, []) := by
      rw [hqp]
      apply fragQuerySplit_clean
      · intro hmem
        exact (hpmem _ hmem).2.2.1 rfl
      · intro hmem
        exact (hpmem _ hmem).2.1 rfl
      · intro hmem
        exact (hqmem _ hmem).2 rfl
    rw [hfq, if_pos hw]
  · rw [hbody, if_neg hw]
    have hn0 : n = [] := by
      unfold withNetloc at hw
      simp only [Bool.or_eq_true, Bool.and_eq_true, decide_eq_true_eq,
        not_or] at hw
      by_contra hne
      exact hw.1 (by simpa using hne)
    have hqps : qpart = [] ∨ ∃ t, qpart = '?' :: t := by
      rw [hqp]
      by_cases hqe : q ≠ []
      · rw [if_pos hqe]
        exact Or.inr ⟨q, rfl⟩
      · rw [if_neg hqe]
        exact Or.inl rfl
    rw [if_neg (take_two_ne_slashes p qpart hp.2.1 hqps)]
    have hfq : fragQuerySplit (p ++ qpart) = (p, q, []) := by
      rw [hqp]
      apply fragQuerySplit_clean
      · intro hmem
        exact (pathChar_facts _ (List.all_eq_true.mp hp.1 _ hmem)).2.2.1 rfl
      · intro hmem
        exact (pathChar_facts _ (List.all_eq_true.mp hp.1 _ hmem)).2.1 rfl
      · intro hmem
        exact (hqmem _ hmem).2 rfl
    rw [hfq, if_neg hw, hn0]

theorem noDoubleSlash_addRoot (p : List Char)
    (h : noDoubleSlash p = true) : noDoubleSlash (addRoot p) = true := by
  unfold addRoot
  by_cases hc : (decide (p ≠ []) && decide (p.take 1 ≠ ['/'])) = true
  · rw [if_pos hc]
    simp only [Bool.and_eq_true, decide_eq_true_eq] at hc
    cases p with
    | nil => rfl
    | cons a t =>
      have ha : a ≠ '/' := by
        intro haa
        exact hc.2 (by rw [haa]; rfl)
      unfold noDoubleSlash
      simp [ha, h]
  · rw [if_neg hc]
    exact h

theorem addRoot_last (p : List Char)
    (h : p.getLast? = some '/' → p = ['/']) :
    (addRoot p).getLast? = some '/' → addRoot p = ['/'] := by
  unfold addRoot
  by_cases hc : (decide (p ≠ []) && decide (p.take 1 ≠ ['/'])) = true
  · rw [if_pos hc]
    simp only [Bool.and_eq_true, decide_eq_true_eq] at hc
    cases p with
    | nil => exact fun _ => absurd rfl hc.1
    | cons a t =>
      rw [List.getLast?_cons_cons]
      intro hl
      have hp := h hl
      rw [hp] at hc
      exact absurd (rfl : List.take 1 ['/'] = ['/']) hc.2
  · rw [if_neg hc]
    exact h

theorem take_two_of_noDouble (l : List Char) (h : noDoubleSlash l = true) :
    l.take 2 ≠ ['/', '/'] := by
  intro hcontra
  match l with
  | [] => simp at hcontra
  | [a] => simp at hcontra
  | a :: b :: t =>
    simp only [List.take_succ_cons, List.take_zero, List.cons.injEq,
      and_true] at hcontra
    unfold noDoubleSlash at h
    rw [hcontra.1, hcontra.2] at h
    simp at h

theorem addRoot_idem (p : List Char) : addRoot (addRoot p) = addRoot p := by
  rcases addRoot_shape p with ⟨heq, _⟩ | heq
  · rw [heq, heq]
  · rw [heq]
    unfold addRoot
    rw [if_neg (by simp)]

theorem noDoubleSlash_strip (l : List Char) (h : noDoubleSlash l = true) :
    noDoubleSlash (stripTrailingSlash l) = true := by
  unfold stripTrailingSlash
  split
  · exact noDoubleSlash_dropLast l h
  · exact h

theorem dropLast_no_trailing (l : List Char) (hnd : noDoubleSlash l = true)
    (hlast : l.getLast? = some '/') (hlen : 1 < l.length) :
    l.dropLast.getLast? ≠ some '/' := by
  induction l with
  | nil => simp at hlen
  | cons a t ih =>
    cases t with
    | nil => simp at hlen
    | cons b u =>
      cases u with
      | nil =>
        have hb : b = '/' := by
          simpa [List.getLast?] using hlast
        unfold noDoubleSlash at hnd
        intro hcon
        have ha : a = '/' := by
          simpa [List.dropLast, List.getLast?] using hcon
        rw [ha, hb] at hnd
        simp at hnd
      | cons c v =>
        have hnd' : noDoubleSlash (b :: c :: v) = true := by
          unfold noDoubleSlash at hnd
          simp only [Bool.and_eq_true] at hnd
          exact hnd.2
        have hlast' : (b :: c :: v).getLast? = some '/' := by
          rw [List.getLast?_cons_cons] at hlast
          exact hlast
        have hrec := ih hnd' hlast' (by simp)
        intro hcon
        apply hrec
        rw [show (a :: b :: c :: v).dropLast =
            a :: b :: (c :: v).dropLast from rfl,
          List.getLast?_cons_cons] at hcon
        exact hcon

theorem strip_last_prop (l : List Char) (hnd : noDoubleSlash l = true) :
    (stripTrailingSlash l).getLast? = some '/' →
      stripTrailingSlash l = ['/'] := by
  unfold stripTrailingSlash
  by_cases hc : (decide (l.getLast? = some '/') &&
      decide (1 < l.length)) = true
  · rw [if_pos hc]
    simp only [Bool.and_eq_true, decide_eq_true_eq] at hc
    intro hcon
    exact absurd hcon (dropLast_no_trailing l hnd hc.1 hc.2)
  · rw [if_neg hc]
    simp only [Bool.and_eq_true, decide_eq_true_eq, not_and_or,
      not_lt] at hc
    intro hlast
    rcases hc with hc | hc
    · exact absurd hlast hc
    · match l, hlast, hc with
      | [x], hlast, _ =>
        have hx : x = '/' := by simpa using hlast
        rw [hx]
      | [], hlast, _ => simp at hlast
      | a :: b :: t, _, hc => simp at hc

theorem unparse_path_stable (s n p q : List Char) (hs : s ≠ [])
    (hnd : noDoubleSlash p = true) :
    urlunparseChars s n
        (if withNetloc s n p = true then addRoot p else p) [] q [] =
      urlunparseChars s n p [] q [] := by
  by_cases hw : withNetloc s n p = true
  · rw [if_pos hw]
    rw [unparse_shape _ _ _ _ hs, unparse_shape _ _ _ _ hs]
    have hw2 : withNetloc s n (addRoot p) = true := by
      unfold withNetloc at hw ⊢
      rcases Bool.or_eq_true_iff.mp hw with h | h
      · simp [h]
      · have ht := take_two_of_noDouble (addRoot p)
          (noDoubleSlash_addRoot p hnd)
        simp only [Bool.and_eq_true, decide_eq_true_eq] at h
        simp [h.1.1, h.1.2, ht]
    rw [if_pos hw2, if_pos hw, addRoot_idem]
  · rw [if_neg hw]

theorem urlparse_unparse (s n p q : List Char) (hs : NormScheme s)
    (hn : NormNetloc n) (hp : NormPath p) (hq : NormQuery q) :
    urlparseE (urlunparseChars s n p [] q []) =
      .ok ⟨s, n, if withNetloc s n p = true then addRoot p else p,
        [], q, []⟩ := by
  unfold urlparseE
  rw [urlsplit_unparse s n p q hs hn hp hq, ok_bind]
  dsimp only
  have hsemi : ';' ∉ (if withNetloc s n p = true then addRoot p else p) := by
    by_cases hw : withNetloc s n p = true
    · rw [if_pos hw]
      intro hm
      rcases mem_addRoot p _ hm with h | h
      · exact absurd h (by decide)
      · exact (pathChar_facts _ (List.all_eq_true.mp hp.1 _ h)).2.2.2 rfl
    · rw [if_neg hw]
      intro hm
      exact (pathChar_facts _ (List.all_eq_true.mp hp.1 _ hm)).2.2.2 rfl
  rw [if_neg (by simp [hsemi])]
  rfl

theorem normalize_url_fix (s n p q : List Char) (hs : NormScheme s)
    (hn : NormNetloc n) (hp : NormPath p) (hq : NormQuery q) :
    normalize_url (urlunparseChars s n p [] q []) =
      .ok (urlunparseChars s n p [] q []) := by
  have hsne : s ≠ [] := by
    obtain ⟨⟨c, cs, hcons, _⟩, _, _⟩ := hs
    rw [hcons]
    simp
  unfold normalize_url
  rw [urlparse_unparse s n p q hs hn hp hq, ok_bind]
  dsimp only
  rw [hs.2.2, if_neg hsne, hn.2]
  have hnd2 : noDoubleSlash
      (if withNetloc s n p = true then addRoot p else p) = true := by
    by_cases hw : withNetloc s n p = true
    · rw [if_pos hw]
      exact noDoubleSlash_addRoot p hp.2.1
    · rw [if_neg hw]
      exact hp.2.1
  have hlast2 : (if withNetloc s n p = true then addRoot p
      else p).getLast? = some '/' →
      (if withNetloc s n p = true then addRoot p else p) = ['/'] := by
    by_cases hw : withNetloc s n p = true
    · rw [if_pos hw]
      exact addRoot_last p hp.2.2
    · rw [if_neg hw]
      exact hp.2.2
  rw [collapse_fix _ hnd2, stripTrailingSlash_fix _ hlast2]
  rcases hq with rfl | ⟨prs, hne, hjoin, hcl, hfil⟩
  · rw [show parseQsl [] = [] from rfl]
    rw [show (([] : List (List Char × List Char)).filter
      (fun kv => kv.1 ∉ TRACKING_PARAMS)) = [] from rfl]
    rw [if_neg (show ¬ (([] : List (List Char × List Char)) ≠ [])
      from by simp)]
    rw [unparse_path_stable s n p [] hsne hp.2.1]
    rfl
  · rw [hjoin, parseQsl_join prs hne hcl, hfil, if_pos hne, ← hjoin,
      unparse_path_stable s n p q hsne hp.2.1]
    rfl

theorem okE_bind {α β : Type} (a : α) (f : α → Except String β) :
    (Except.ok a).bind f = f a := rfl

theorem splitFirst_none (sep : Char) (l : List Char)
    (h : splitFirst sep l = none) : sep ∉ l := by
  induction l with
  | nil => simp
  | cons x xs ih =>
    unfold splitFirst at h
    by_cases hx : x = sep
    · rw [if_pos hx] at h
      simp at h
    · rw [if_neg hx] at h
      intro hm
      rcases List.mem_cons.mp hm with rfl | hm
      · exact hx rfl
      · cases hsp : splitFirst sep xs with
        | none => exact (ih hsp) hm
        | some pr =>
          rw [hsp] at h
          simp at h

theorem splitFirst_some (sep : Char) (l a b : List Char)
    (h : splitFirst sep l = some (a, b)) :
    l = a ++ sep :: b ∧ sep ∉ a := by
  induction l generalizing a b with
  | nil => simp [splitFirst] at h
  | cons x xs ih =>
    unfold splitFirst at h
    by_cases hx : x = sep
    · rw [if_pos hx] at h
      simp only [Option.some.injEq, Prod.mk.injEq] at h
      rw [← h.1, ← h.2, hx]
      exact ⟨rfl, by simp⟩
    · rw [if_neg hx] at h
      cases hsp : splitFirst sep xs with
      | none =>
        rw [hsp] at h
        simp at h
      | some pr =>
        obtain ⟨pa, pb⟩ := pr
        rw [hsp] at h
        simp only [Option.map_some', Option.some.injEq, Prod.mk.injEq] at h
        obtain ⟨hL, hnm⟩ := ih pa pb hsp
        rw [← h.1, ← h.2]
        constructor
        · rw [hL]
          simp
        · intro hmem
          rcases List.mem_cons.mp hmem with heq | hmem
          · exact hx heq.symm
          · exact hnm hmem

theorem goodChar_facts (c : Char) (h : goodChar c = true) :
    c.toNat < 128 ∧ c ≠ '%' ∧ c ≠ ';' ∧ c ≠ '[' ∧ c ≠ ']' := by
  unfold goodChar at h
  simp only [Bool.and_eq_true, Bool.not_eq_true', Bool.or_eq_false_iff,
    decide_eq_false_iff_not, decide_eq_true_eq] at h
  exact ⟨h.1, h.2.1.1.1, h.2.1.1.2, h.2.1.2, h.2.2⟩

theorem plusToSpace_chars (l : List Char) (c : Char)
    (h : c ∈ plusToSpace l) : c = ' ' ∨ (c ∈ l ∧ c ≠ '+') := by
  unfold plusToSpace at h
  obtain ⟨x, hx, hxc⟩ := List.mem_map.mp h
  by_cases hplus : x = '+'
  · left
    rw [hplus, if_pos rfl] at hxc
    exact hxc.symm
  · right
    rw [if_neg hplus] at hxc
    rw [← hxc]
    exact ⟨hx, hplus⟩

theorem splitOnChar_pieces (sep : Char) (l : List Char) :
    ∀ piece ∈ splitOnChar sep l, sep ∉ piece ∧ ∀ c ∈ piece, c ∈ l := by
  induction l with
  | nil =>
    intro piece hp
    simp only [splitOnChar, List.mem_singleton] at hp
    rw [hp]
    simp
  | cons x xs ih =>
    intro piece hp
    unfold splitOnChar at hp
    by_cases hx : x = sep
    · rw [if_pos hx] at hp
      rcases List.mem_cons.mp hp with rfl | hp
      · exact ⟨by simp, by simp⟩
      · have hr := ih piece hp
        exact ⟨hr.1, fun c hc => List.mem_cons_of_mem _ (hr.2 c hc)⟩
    · rw [if_neg hx] at hp
      cases hr : splitOnChar sep xs with
      | nil =>
        rw [hr] at hp
        rcases List.mem_singleton.mp hp with rfl
        constructor
        · intro hmem
          rcases List.mem_singleton.mp hmem with rfl
          exact hx rfl
        · intro c hc
          rcases List.mem_singleton.mp hc with rfl
          exact List.mem_cons_self _ _
      | cons hd t =>
        rw [hr] at hp
        rcases List.mem_cons.mp hp with rfl | hp
        · have hh := ih hd (by rw [hr]; exact List.mem_cons_self _ _)
          constructor
          · intro hmem
            rcases List.mem_cons.mp hmem with heq | hmem
            · exact hx heq.symm
            · exact hh.1 hmem
          · intro c hc
            rcases List.mem_cons.mp hc with rfl | hc
            · exact List.mem_cons_self _ _
            · exact List.mem_cons_of_mem _ (hh.2 c hc)
        · have hr2 := ih piece (by rw [hr]; exact List.mem_cons_of_mem _ hp)
          exact ⟨hr2.1, fun c hc => List.mem_cons_of_mem _ (hr2.2 c hc)⟩

theorem plus_unquote_val (vl : List Char)
    (hmem : ∀ c ∈ vl, goodChar c = true ∧ safeChar c = true ∧ c ≠ '#' ∧
      c ≠ '&') :
    (unquote (plusToSpace vl)).all qvalChar = true := by
  have hnp : '%' ∉ plusToSpace vl := by
    intro hm
    rcases plusToSpace_chars vl '%' hm with h | ⟨hin, _⟩
    · exact absurd h (by decide)
    · exact (goodChar_facts _ (hmem _ hin).1).2.1 rfl
  rw [unquote_of_not_mem _ hnp]
  apply List.all_eq_true.mpr
  intro x hx
  rcases plusToSpace_chars vl x hx with rfl | ⟨hin, hplus⟩
  · decide
  · obtain ⟨hgood, hsafe, hhash, hamp⟩ := hmem x hin
    simp [qvalChar, hgood, hsafe, hhash, hamp, hplus]

theorem plus_unquote_key (nm : List Char)
    (hmem : ∀ c ∈ nm, goodChar c = true ∧ safeChar c = true ∧ c ≠ '#' ∧
      c ≠ '&')
    (hneq : '=' ∉ nm) :
    (unquote (plusToSpace nm)).all qkeyChar = true := by
  have hnp : '%' ∉ plusToSpace nm := by
    intro hm
    rcases plusToSpace_chars nm '%' hm with h | ⟨hin, _⟩
    · exact absurd h (by decide)
    · exact (goodChar_facts _ (hmem _ hin).1).2.1 rfl
  rw [unquote_of_not_mem _ hnp]
  apply List.all_eq_true.mpr
  intro x hx
  rcases plusToSpace_chars nm x hx with rfl | ⟨hin, hplus⟩
  · decide
  · obtain ⟨hgood, hsafe, hhash, hamp⟩ := hmem x hin
    have heqx : x ≠ '=' := fun hxe => hneq (hxe ▸ hin)
    simp [qkeyChar, qvalChar, hgood, hsafe, hhash, hamp, hplus, heqx]

theorem qslPair_good (seg k v : List Char)
    (hg : ∀ c ∈ seg, goodChar c = true ∧ safeChar c = true ∧ c ≠ '#')
    (hamp : '&' ∉ seg) (h : qslPair seg = some (k, v)) :
    k.all qkeyChar = true ∧ v.all qvalChar = true := by
  have hg2 : ∀ c ∈ seg, goodChar c = true ∧ safeChar c = true ∧ c ≠ '#' ∧
      c ≠ '&' := by
    intro c hc
    obtain ⟨h1, h2, h3⟩ := hg c hc
    exact ⟨h1, h2, h3, fun hce => hamp (hce ▸ hc)⟩
  unfold qslPair at h
  by_cases hseg : seg = []
  · rw [if_pos hseg] at h
    simp at h
  · rw [if_neg hseg] at h
    rcases hsp : splitFirst '=' seg with _ | ⟨nm, vl⟩
    · rw [hsp] at h
      dsimp only at h
      simp only [Option.some.injEq, Prod.mk.injEq] at h
      rw [← h.1, ← h.2]
      have hknoeq : '=' ∉ seg := splitFirst_none '=' seg hsp
      constructor
      · exact plus_unquote_key seg hg2 hknoeq
      · rw [show plusToSpace [] = [] from rfl,
          unquote_of_not_mem [] (by simp)]
        rfl
    · rw [hsp] at h
      dsimp only at h
      simp only [Option.some.injEq, Prod.mk.injEq] at h
      obtain ⟨hL, hnmeq⟩ := splitFirst_some '=' seg nm vl hsp
      have hnmem : ∀ c ∈ nm, c ∈ seg := by
        intro c hc
        rw [hL]
        exact List.mem_append_left _ hc
      have hvmem : ∀ c ∈ vl, c ∈ seg := by
        intro c hc
        rw [hL]
        exact List.mem_append_right _ (List.mem_cons_of_mem _ hc)
      rw [← h.1, ← h.2]
      constructor
      · exact plus_unquote_key nm (fun c hc => hg2 c (hnmem c hc)) hnmeq
      · exact plus_unquote_val vl (fun c hc => hg2 c (hvmem c hc))

theorem parseQsl_clean (qs : List Char)
    (hg : ∀ c ∈ qs, goodChar c = true ∧ safeChar c = true ∧ c ≠ '#') :
    ∀ kv ∈ parseQsl qs, kv.1.all qkeyChar = true ∧
      kv.2.all qvalChar = true := by
  intro kv hkv
  obtain ⟨k, v⟩ := kv
  unfold parseQsl at hkv
  by_cases hqs : qs = []
  · rw [if_pos hqs] at hkv
    simp at hkv
  · rw [if_neg hqs] at hkv
    obtain ⟨piece, hpiece, hpair⟩ := List.mem_filterMap.mp hkv
    obtain ⟨hsep, hsub⟩ := splitOnChar_pieces '&' qs piece hpiece
    exact qslPair_good piece k v (fun c hc => hg c (hsub c hc)) hsep hpair

theorem schemeSplit_props (l sch rest : List Char)
    (h : schemeSplit l = (sch, rest)) :
    (sch = [] ∧ rest = l) ∨ (NormScheme sch ∧ ∀ c ∈ rest, c ∈ l) := by
  unfold schemeSplit at h
  rcases hsp : splitFirst ':' l with _ | ⟨bef, aft⟩
  · rw [hsp] at h
    dsimp only at h
    simp only [Prod.mk.injEq] at h
    exact Or.inl ⟨h.1.symm, h.2.symm⟩
  · rw [hsp] at h
    dsimp only at h
    obtain ⟨hL, hnm⟩ := splitFirst_some ':' l bef aft hsp
    split at h
    · next hcond =>
      simp only [Prod.mk.injEq] at h
      right
      constructor
      · rw [← h.1]
        simp only [Bool.and_eq_true, decide_eq_true_eq] at hcond
        obtain ⟨⟨hbne, hhead⟩, hall⟩ := hcond
        cases hbef : bef with
        | nil => exact absurd hbef hbne
        | cons c cs =>
          subst hbef
          refine ⟨⟨lowerChar c, lowerAscii cs, rfl, ?_⟩, ?_, lowerAscii_idem _⟩
          · exact isAsciiLower_lowerChar_of_alpha c hhead
          · apply List.all_eq_true.mpr
            intro x hx
            obtain ⟨y, hy, rfl⟩ := List.mem_map.mp hx
            exact isSchemeChar_lowerChar y (List.all_eq_true.mp hall y hy)
      · intro c hc
        rw [← h.2] at hc
        rw [hL]
        exact List.mem_append_right _ (List.mem_cons_of_mem _ hc)
    · next hcond =>
      simp only [Prod.mk.injEq] at h
      exact Or.inl ⟨h.1.symm, h.2.symm⟩

theorem fragQuerySplit_parts (l : List Char) :
    ∃ path query frag, fragQuerySplit l = (path, query, frag) ∧
      (∀ c ∈ path, c ∈ l) ∧ '?' ∉ path ∧ '#' ∉ path ∧
      (∀ c ∈ query, c ∈ l) ∧ '#' ∉ query := by
  unfold fragQuerySplit
  rcases hsp1 : splitFirst '#' l with _ | ⟨l1, fr⟩
  · have hnh : '#' ∉ l := splitFirst_none '#' l hsp1
    dsimp only
    rcases hsp2 : splitFirst '?' l with _ | ⟨a, q⟩
    · exact ⟨l, [], [], rfl, fun c hc => hc,
        splitFirst_none '?' l hsp2, hnh, by simp, by simp⟩
    · obtain ⟨hL, hq⟩ := splitFirst_some '?' l a q hsp2
      refine ⟨a, q, [], rfl, ?_, hq, ?_, ?_, ?_⟩
      · intro c hc
        rw [hL]
        exact List.mem_append_left _ hc
      · intro hm
        exact hnh (by rw [hL]; exact List.mem_append_left _ hm)
      · intro c hc
        rw [hL]
        exact List.mem_append_right _ (List.mem_cons_of_mem _ hc)
      · intro hm
        exact hnh (by
          rw [hL]
          exact List.mem_append_right _ (List.mem_cons_of_mem _ hm))
  · obtain ⟨hL1, hnf⟩ := splitFirst_some '#' l l1 fr hsp1
    dsimp only
    have hsubl1 : ∀ c ∈ l1, c ∈ l := by
      intro c hc
      rw [hL1]
      exact List.mem_append_left _ hc
    rcases hsp2 : splitFirst '?' l1 with _ | ⟨a, q⟩
    · exact ⟨l1, [], fr, rfl, hsubl1, splitFirst_none '?' l1 hsp2, hnf,
        by simp, by simp⟩
    · obtain ⟨hL2, hq⟩ := splitFirst_some '?' l1 a q hsp2
      have hsuba : ∀ c ∈ a, c ∈ l1 := by
        intro c hc
        rw [hL2]
        exact List.mem_append_left _ hc
      have hsubq : ∀ c ∈ q, c ∈ l1 := by
        intro c hc
        rw [hL2]
        exact List.mem_append_right _ (List.mem_cons_of_mem _ hc)
      exact ⟨a, q, fr, rfl, fun c hc => hsubl1 c (hsuba c hc), hq,
        fun hm => hnf (hsuba _ hm), fun c hc => hsubl1 c (hsubq c hc),
        fun hm => hnf (hsubq _ hm)⟩

theorem urlsplitE_good (u : List Char) (hg : ∀ c ∈ u, goodChar c = true) :
    ∃ r, urlsplitE u = .ok r ∧
      (r.scheme = [] ∨ NormScheme r.scheme) ∧
      r.netloc.all netlocChar = true ∧
      r.path.all pathChar = true ∧
      (∀ c ∈ r.query, goodChar c = true ∧ safeChar c = true ∧
        c ≠ '#') := by
  unfold urlsplitE
  dsimp only
  have hgs1 : ∀ c ∈ removeUnsafe (lstripC0 u),
      goodChar c = true ∧ safeChar c = true := by
    intro c hc
    refine ⟨hg c ((List.dropWhile_sublist _).subset
      (List.mem_of_mem_filter hc)), ?_⟩
    have := List.of_mem_filter hc
    exact this
  rcases hss : schemeSplit (removeUnsafe (lstripC0 u)) with ⟨sch, url2⟩
  have hschf : sch = [] ∨ NormScheme sch :=
    (schemeSplit_props _ _ _ hss).elim (fun h => Or.inl h.1)
      (fun h => Or.inr h.1)
  have hsub2 : ∀ c ∈ url2, goodChar c = true ∧ safeChar c = true := by
    intro c hc
    exact hgs1 c (schemeSplit_snd_mem _ c (by rw [hss]; exact hc))
  dsimp only
  by_cases h2 : url2.take 2 = ['/', '/']
  · rw [if_pos h2]
    have hsubdrop : ∀ c ∈ url2.drop 2, goodChar c = true ∧
        safeChar c = true := by
      intro c hc
      exact hsub2 c (List.drop_subset _ _ hc)
    have hnetall : ((url2.drop 2).takeWhile
        (fun c => !isNetlocDelim c)).all netlocChar = true := by
      apply List.all_eq_true.mpr
      intro x hx
      have hdelim := of_mem_takeWhile _ _ _ hx
      obtain ⟨hgood, hsafe⟩ :=
        hsubdrop x ((List.takeWhile_sublist _).subset hx)
      simp only [netlocChar, Bool.and_eq_true]
      exact ⟨⟨hgood, hsafe⟩, hdelim⟩
    have hnl : '[' ∉ (url2.drop 2).takeWhile (fun c => !isNetlocDelim c) := by
      intro hmem
      exact (goodChar_facts _ (hsubdrop _
        ((List.takeWhile_sublist _).subset hmem)).1).2.2.2.1 rfl
    have hnr : ']' ∉ (url2.drop 2).takeWhile (fun c => !isNetlocDelim c) := by
      intro hmem
      exact (goodChar_facts _ (hsubdrop _
        ((List.takeWhile_sublist _).subset hmem)).1).2.2.2.2 rfl
    rw [if_neg (by simp [hnl, hnr])]
    obtain ⟨path, query, frag, hfq, hpsub, hpq, hph, hqsub, hqh⟩ :=
      fragQuerySplit_parts ((url2.drop 2).dropWhile
        (fun c => !isNetlocDelim c))
    have hsubafter : ∀ c ∈ (url2.drop 2).dropWhile
        (fun c => !isNetlocDelim c), goodChar c = true ∧
        safeChar c = true := by
      intro c hc
      exact hsubdrop c ((List.dropWhile_sublist _).subset hc)
    rw [hfq]
    refine ⟨_, rfl, hschf, hnetall, ?_, ?_⟩
    · apply List.all_eq_true.mpr
      intro x hx
      obtain ⟨hgood, hsafe⟩ := hsubafter x (hpsub x hx)
      have hxq : x ≠ '?' := fun hxe => hpq (hxe ▸ hx)
      have hxh : x ≠ '#' := fun hxe => hph (hxe ▸ hx)
      simp [pathChar, hgood, hsafe, hxq, hxh]
    · intro c hc
      obtain ⟨hgood, hsafe⟩ := hsubafter c (hqsub c hc)
      exact ⟨hgood, hsafe, fun hce => hqh (hce ▸ hc)⟩
  · rw [if_neg h2]
    obtain ⟨path, query, frag, hfq, hpsub, hpq, hph, hqsub, hqh⟩ :=
      fragQuerySplit_parts url2
    rw [hfq]
    refine ⟨_, rfl, hschf, rfl, ?_, ?_⟩
    · apply List.all_eq_true.mpr
      intro x hx
      obtain ⟨hgood, hsafe⟩ := hsub2 x (hpsub x hx)
      have hxq : x ≠ '?' := fun hxe => hpq (hxe ▸ hx)
      have hxh : x ≠ '#' := fun hxe => hph (hxe ▸ hx)
      simp [pathChar, hgood, hsafe, hxq, hxh]
    · intro c hc
      obtain ⟨hgood, hsafe⟩ := hsub2 c (hqsub c hc)
      exact ⟨hgood, hsafe, fun hce => hqh (hce ▸ hc)⟩

theorem normalize_url_good (u : List Char)
    (hg : ∀ c ∈ u, goodChar c = true) :
    ∃ s n p q, NormScheme s ∧ NormNetloc n ∧ NormPath p ∧ NormQuery q ∧
      normalize_url u = .ok (urlunparseChars s n p [] q []) := by
  obtain ⟨r, hr, hsch, hnet, hpath, hqry⟩ := urlsplitE_good u hg
  have hsemi : ';' ∉ r.path := by
    intro hm
    exact (pathChar_facts _ (List.all_eq_true.mp hpath _ hm)).2.2.2 rfl
  have hpr : urlparseE u =
      .ok ⟨r.scheme, r.netloc, r.path, [], r.query, r.fragment⟩ := by
    unfold urlparseE
    rw [hr, ok_bind]
    rw [if_neg (by simp [hsemi])]
    rfl
  unfold normalize_url
  rw [hpr, ok_bind]
  dsimp only
  refine ⟨_, _, _, _, ?_, ?_, ?_, ?_, rfl⟩
  · rcases hsch with hnil | hns
    · rw [hnil, show lowerAscii [] = [] from rfl, if_pos rfl]
      exact ⟨⟨'h', String.toList "ttps", rfl, by decide⟩, by decide,
        by decide⟩
    · rw [hns.2.2, if_neg (by
        obtain ⟨⟨c, cs, hcons, _⟩, _, _⟩ := hns
        rw [hcons]
        simp)]
      exact hns
  · constructor
    · apply List.all_eq_true.mpr
      intro x hx
      obtain ⟨y, hy, rfl⟩ := List.mem_map.mp hx
      exact netlocChar_lowerChar y (List.all_eq_true.mp hnet y hy)
    · exact lowerAscii_idem _
  · refine ⟨?_, noDoubleSlash_strip _ (noDoubleSlash_collapse _),
      strip_last_prop _ (noDoubleSlash_collapse _)⟩
    apply List.all_eq_true.mpr
    intro x hx
    exact List.all_eq_true.mp hpath x
      (mem_collapse _ _ (stripTrailingSlash_mem _ _ hx))
  · by_cases hqf : ((parseQsl r.query).filter
        (fun kv => kv.1 ∉ TRACKING_PARAMS)) ≠ []
    · rw [if_pos hqf]
      right
      refine ⟨_, hqf, rfl, ?_, ?_⟩
      · intro kv hkv
        exact parseQsl_clean r.query hqry kv (List.mem_of_mem_filter hkv)
      · apply List.filter_eq_self.mpr
        intro kv hkv
        exact (List.mem_filter.mp hkv).2
    · rw [if_neg hqf]
      exact Or.inl rfl

/-- **C3** (amended): `normalize_url` is not idempotent in general —
percent-decoding in `parse_qsl` and `=`-free parameter re-joining give
`normalize_url "https://x/p?a=b%26c" = "https://x/p?a=b&c"`, which
normalizes again to `"https://x/p?a=b&c="` — but it is idempotent on
every input made of ASCII characters other than `%`, `;`, `[` and `]`:
normalizing a normalized such URL returns it unchanged. -/
theorem normalize_url_idempotent_amended (u : List Char)
    (h : ∀ c ∈ u, goodChar c = true) :
    (normalize_url u).bind normalize_url = normalize_url u := by
  obtain ⟨s, n, p, q, hs, hn, hp, hq, heq⟩ := normalize_url_good u h
  rw [heq, okE_bind, normalize_url_fix s n p q hs hn hp hq]

theorem normalize_url_idempotent_amended_witness :
    (∀ c ∈ String.toList "https://Example.com//a/?x=1&utm_source=g",
      goodChar c = true) ∧
    (normalize_url
        (String.toList "https://Example.com//a/?x=1&utm_source=g")).bind
        normalize_url =
      normalize_url
        (String.toList "https://Example.com//a/?x=1&utm_source=g") :=
  ⟨by decide, normalize_url_idempotent_amended _ (by decide)⟩

end SemCatalogue
